import Mathlib

/-
  Verification of the entwine ChunkCache (src/entwine/builder/chunk-cache.cpp).

  The cache state is embedded shallowly: each C++ member becomes a field of
  the `ChunkCache` structure, and each member function becomes a Lean
  function from the state to an optional new state paired with the list of
  lock/IO events the call performs, in program order.  A result of `none`
  models a fatal assertion failure (or a throwing std::map::at).  The
  operations run at whole-call granularity, matching the source text of
  each function line by line.
-/

namespace EntwineCache

/-- Modelled from the spec: a 3D integer chunk position (the code keeps it in
entwine/types; only its total order and equality are used here). -/
structure Xyz where
  x : Nat
  y : Nat
  z : Nat
deriving DecidableEq, Repr

/-- Modelled from the spec: a ChunkAddress, depth plus position, ordered
lexicographically by depth then position. -/
structure Dxyz where
  depth : Nat
  pos : Xyz
deriving DecidableEq, Repr

/-- Lexicographic order on positions, as used by the std::map and std::set keys. -/
def xyzLt (a b : Xyz) : Bool :=
  decide (a.x < b.x) ||
    (decide (a.x = b.x) && (decide (a.y < b.y) ||
      (decide (a.y = b.y) && decide (a.z < b.z))))

/-- Lexicographic order on addresses: depth first, then position. -/
def dxyzLt (a b : Dxyz) : Bool :=
  decide (a.depth < b.depth) ||
    (decide (a.depth = b.depth) && xyzLt a.pos b.pos)

/-- Modelled from the spec: collaborator-owned chunk content.  Only the facts
the cache observes are kept: the chunk key (returned by chunkKey) and the
point count that save returns and load restores. -/
structure NewChunk where
  key : Dxyz
  np : Nat
deriving DecidableEq, Repr

/-- Modelled from the spec: the RefCounted Slot (NewReffedChunk in the header,
which is not part of the sources here): a reference count plus an optional
chunk; exists() is chunk.isSome, add and del move the count. -/
structure NewReffedChunk where
  count : Nat
  chunk : Option NewChunk
deriving DecidableEq, Repr

/-- Statistics struct latched by ChunkCache::latchInfo. -/
structure Info where
  alive : Nat
  written : Nat
  read : Nat
deriving DecidableEq, Repr

/-- Association-list lookup, the shallow embedding of std::map::find. -/
def lookupK {α : Type} : List (Xyz × α) → Xyz → Option α
  | [], _ => none
  | (k', v) :: t, k => if k' = k then some v else lookupK t k

/-- Write-through at a key, the embedding of mutation through a map iterator
(and of emplace when the key is absent). -/
def setK {α : Type} : List (Xyz × α) → Xyz → α → List (Xyz × α)
  | [], k, v => [(k, v)]
  | (k', v') :: t, k, v => if k' = k then (k, v) :: t else (k', v') :: setK t k v

/-- Erase a key, the embedding of std::map::erase. -/
def eraseK {α : Type} : List (Xyz × α) → Xyz → List (Xyz × α)
  | [], _ => []
  | (k', v') :: t, k => if k' = k then t else (k', v') :: eraseK t k

/-- Remove one occurrence of an address, the embedding of std::set::erase. -/
def removeD : List Dxyz → Dxyz → List Dxyz
  | [], _ => []
  | h :: t, a => if h = a then t else h :: removeD t a

/-- The greatest element of a set of addresses, the embedding of
*m_owned.rbegin() on the ordered std::set. -/
def maxD : List Dxyz → Option Dxyz
  | [] => none
  | a :: t => some (t.foldl (fun m b => if dxyzLt m b then b else m) a)

/-- The three lock domains of the cache: the eviction-pool lock m_ownedSpin,
the per-depth slice locks m_spins, and the per-slot chunk locks. -/
inductive Lk where
  | pool : Lk
  | slice : Nat → Lk
  | slot : Dxyz → Lk
deriving DecidableEq, Repr

/-- Events a call emits in program order: lock acquisitions and releases, and
the two IO actions (chunk load and chunk save). -/
inductive Ev where
  | acq : Lk → Ev
  | rel : Lk → Ev
  | load : Dxyz → Ev
  | save : Dxyz → Ev
deriving DecidableEq, Repr

/-- Remove one occurrence of a lock from the held list. -/
def removeL : List Lk → Lk → List Lk
  | [], _ => []
  | h :: t, l => if h = l then t else h :: removeL t l

/-- A trace respects a rank function (smaller rank = outer lock) when every
acquisition happens while only strictly outer locks are held. -/
def respects (rank : Lk → Nat) : List Lk → List Ev → Bool
  | _, [] => true
  | held, Ev.acq l :: t =>
      held.all (fun h => decide (rank h < rank l)) && respects rank (l :: held) t
  | held, Ev.rel l :: t => respects rank (removeL held l) t
  | held, Ev.load _ :: t => respects rank held t
  | held, Ev.save _ :: t => respects rank held t

/-- Locks held after running a trace from a given held list. -/
def holdsAfter : List Lk → List Ev → List Lk
  | held, [] => held
  | held, Ev.acq l :: t => holdsAfter (l :: held) t
  | held, Ev.rel l :: t => holdsAfter (removeL held l) t
  | held, Ev.load _ :: t => holdsAfter held t
  | held, Ev.save _ :: t => holdsAfter held t

/-- Every chunk load and save in the trace runs while exactly the one slot
lock of that chunk is held. -/
def ioHeld : List Lk → List Ev → Bool
  | _, [] => true
  | held, Ev.acq l :: t => ioHeld (l :: held) t
  | held, Ev.rel l :: t => ioHeld (removeL held l) t
  | held, Ev.load a :: t => (held = [Lk.slot a] : Bool) && ioHeld held t
  | held, Ev.save a :: t => (held = [Lk.slot a] : Bool) && ioHeld held t

/-- The lock order the specification claims: slice outermost, then slot, then
pool innermost. -/
def claimedRank : Lk → Nat
  | Lk.slice _ => 0
  | Lk.slot _ => 1
  | Lk.pool => 2

/-- The lock order the code actually follows: pool outermost, then slice,
then slot innermost. -/
def codeRank : Lk → Nat
  | Lk.pool => 0
  | Lk.slice _ => 1
  | Lk.slot _ => 2

/-- The ChunkCache state: the depth slices m_slices, the eviction pool
m_owned, the Hierarchy collaborator, the statistics struct behind infoSpin,
the log of chunk saves performed (the bytes written out), and the queue of
serialization tasks handed to m_pool. -/
structure ChunkCache where
  slices : Nat → List (Xyz × NewReffedChunk)
  owned : List Dxyz
  hierarchy : Dxyz → Nat
  info : Info
  saved : List (Dxyz × Nat)
  queue : List Dxyz

/-- Replace one depth slice. -/
def setSlice (c : ChunkCache) (d : Nat) (s : List (Xyz × NewReffedChunk)) : ChunkCache :=
  { c with slices := fun d' => if d' = d then s else c.slices d' }

/-- Increment the read statistic under infoSpin. -/
def bumpRead (c : ChunkCache) : ChunkCache :=
  { c with info := { c.info with read := c.info.read + 1 } }

/-- ChunkCache::latchInfo: atomically copy the statistics and zero the
written and read counters. -/
def latchInfo (c : ChunkCache) : Info × ChunkCache :=
  (c.info, { c with info := { c.info with written := 0, read := 0 } })

/-- The common tail of ChunkCache::addRef for an existing entry, lines
128-142 of chunk-cache.cpp: after the slot lock is released, write the slot
back and check the eviction pool under the pool lock; reclaiming an address
that sits there retakes the slot lock, compensates the reference count
(assert ref.count() > 1) and removes the address from the pool. -/
def addRefPool (c1 : ChunkCache) (ck : Dxyz) (ref2 : NewReffedChunk) (tr1 : List Ev) :
    Option (ChunkCache × List Ev) :=
  let d := ck.depth
  let tr2 := tr1 ++ [Ev.rel (Lk.slot ck), Ev.acq Lk.pool]
  if ck ∈ c1.owned then
    -- assert(ref.count() > 1)
    if ref2.count ≤ 1 then none
    else
      let c2 := setSlice c1 d (setK (c1.slices d) ck.pos { ref2 with count := ref2.count - 1 })
      some ({ c2 with owned := removeD c2.owned ck },
            tr2 ++ [Ev.acq (Lk.slot ck), Ev.rel Lk.pool, Ev.rel (Lk.slot ck)])
  else
    some (setSlice c1 d (setK (c1.slices d) ck.pos ref2), tr2 ++ [Ev.rel Lk.pool])

/-- ChunkCache::addRef, lines 83-191 of chunk-cache.cpp.  The existing-entry
path increments the count, rematerializes an absent chunk (asserting the
count is exactly 1 and the hierarchy count nonzero, and bumping the read
statistic), and then runs the pool-reclaim tail above.  The fresh path
emplaces a slot with count 1 under the slice lock and loads prior content
when the Hierarchy records a nonzero point count. -/
def addRef (c : ChunkCache) (ck : Dxyz) : Option (ChunkCache × List Ev) :=
  let d := ck.depth
  match lookupK (c.slices d) ck.pos with
  | some ref0 =>
    let tr0 : List Ev := [Ev.acq (Lk.slice d), Ev.acq (Lk.slot ck), Ev.rel (Lk.slice d)]
    match ref0.chunk with
    | none =>
      -- assert(ref.count() == 1) after the add
      if ref0.count + 1 = 1 then
        let np := c.hierarchy ck
        -- assert(np)
        if np = 0 then none
        else addRefPool (bumpRead c) ck
          { count := ref0.count + 1, chunk := some { key := ck, np := np } }
          (tr0 ++ [Ev.load ck])
      else none
    | some ch => addRefPool c ck { ref0 with count := ref0.count + 1, chunk := some ch } tr0
  | none =>
    let np := c.hierarchy ck
    let c1 := { c with info := { c.info with alive := c.info.alive + 1 } }
    if np = 0 then
      let c2 := setSlice c1 d (setK (c1.slices d) ck.pos { count := 1, chunk := some { key := ck, np := 0 } })
      some (c2, [Ev.acq (Lk.slice d), Ev.acq (Lk.slot ck), Ev.rel (Lk.slice d), Ev.rel (Lk.slot ck)])
    else
      let c2 := bumpRead (setSlice c1 d (setK (c1.slices d) ck.pos { count := 1, chunk := some { key := ck, np := np } }))
      some (c2, [Ev.acq (Lk.slice d), Ev.acq (Lk.slot ck), Ev.rel (Lk.slice d), Ev.load ck, Ev.rel (Lk.slot ck)])

/-- The loop body sequence of ChunkCache::prune, lines 200-226.  Each stale
entry must be present (assert slice.count) with a nonzero count (assert
ref.count()); when del() reaches zero the count is put back to 1, both locks
are dropped, and the address is recorded in m_owned under the pool lock
(asserting it was not already there) before the slice lock is retaken. -/
def pruneLoop (c : ChunkCache) (d : Nat) : List Xyz → Option (ChunkCache × List Ev)
  | [] => some (c, [])
  | k :: rest =>
    match lookupK (c.slices d) k with
    | none => none
    | some ref =>
      if ref.count = 0 then none
      else if ref.count = 1 then
        let a : Dxyz := ⟨d, k⟩
        let c1 := setSlice c d (setK (c.slices d) k { ref with count := 1 })
        if a ∈ c1.owned then none
        else
          let c2 := { c1 with owned := a :: c1.owned }
          match pruneLoop c2 d rest with
          | none => none
          | some (c3, tr) =>
            some (c3, [Ev.acq (Lk.slot a), Ev.rel (Lk.slot a), Ev.rel (Lk.slice d),
                       Ev.acq Lk.pool, Ev.rel Lk.pool, Ev.acq (Lk.slice d)] ++ tr)
      else
        let c1 := setSlice c d (setK (c.slices d) k { ref with count := ref.count - 1 })
        match pruneLoop c1 d rest with
        | none => none
        | some (c2, tr) =>
          some (c2, [Ev.acq (Lk.slot ⟨d, k⟩), Ev.rel (Lk.slot ⟨d, k⟩)] ++ tr)

/-- ChunkCache::prune, lines 193-227: no-op on an empty stale set, otherwise
the loop above under the slice lock. -/
def prune (c : ChunkCache) (d : Nat) (stale : List Xyz) : Option (ChunkCache × List Ev) :=
  if stale = [] then some (c, [])
  else
    match pruneLoop c d stale with
    | none => none
    | some (c1, tr) => some (c1, Ev.acq (Lk.slice d) :: tr ++ [Ev.rel (Lk.slice d)])

/-- One iteration of the while loop of ChunkCache::maybePurge, lines 233-265:
pick the greatest pooled address, lock its slice then its slot (while still
holding the pool lock), erase it from the pool, assert at shutdown that the
pool holds the only reference, and when del() reaches zero drop every lock
and queue maybeSerialize on the IO pool before retaking the pool lock. -/
def purgeBody (c : ChunkCache) (maxCacheSize : Nat) : Option (ChunkCache × List Ev) :=
  match maxD c.owned with
  | none => none
  | some dxyz =>
    let d := dxyz.depth
    match lookupK (c.slices d) dxyz.pos with
    | none => none
    | some ref =>
      let tr0 : List Ev := [Ev.acq (Lk.slice d), Ev.acq (Lk.slot dxyz)]
      let c1 := { c with owned := removeD c.owned dxyz }
      -- assert(maxCacheSize || ref.count() == 1)
      if maxCacheSize = 0 ∧ ref.count ≠ 1 then none
      else if ref.count = 1 then
        let c2 := setSlice c1 d (setK (c1.slices d) dxyz.pos { ref with count := 0 })
        some ({ c2 with queue := c2.queue ++ [dxyz] },
              tr0 ++ [Ev.rel (Lk.slot dxyz), Ev.rel (Lk.slice d), Ev.rel Lk.pool, Ev.acq Lk.pool])
      else
        let c2 := setSlice c1 d (setK (c1.slices d) dxyz.pos { ref with count := ref.count - 1 })
        some (c2, tr0 ++ [Ev.rel (Lk.slot dxyz), Ev.rel (Lk.slice d)])

/-- The while loop of ChunkCache::maybePurge, driven by fuel; each successful
body erases one pooled address, so fuel equal to the pool size is enough. -/
def purgeLoop : Nat → ChunkCache → Nat → Option (ChunkCache × List Ev)
  | 0, c, _ => some (c, [])
  | fuel + 1, c, maxCacheSize =>
    if c.owned.length > maxCacheSize then
      match purgeBody c maxCacheSize with
      | none => none
      | some (c1, tr1) =>
        match purgeLoop fuel c1 maxCacheSize with
        | none => none
        | some (c2, tr2) => some (c2, tr1 ++ tr2)
    else some (c, [])

/-- ChunkCache::maybePurge, lines 229-267. -/
def maybePurge (c : ChunkCache) (maxCacheSize : Nat) : Option (ChunkCache × List Ev) :=
  match purgeLoop c.owned.length c maxCacheSize with
  | none => none
  | some (c1, tr) => some (c1, Ev.acq Lk.pool :: tr ++ [Ev.rel Lk.pool])

/-- ChunkCache::maybeErase, lines 332-358: with both locks retaken, erase the
slot only when it is unreferenced and contentless; the slot lock is released
together with the slot itself (chunkLock.release()), so no unlock event is
emitted for it. -/
def maybeErase (c : ChunkCache) (dxyz : Dxyz) : ChunkCache × List Ev :=
  let d := dxyz.depth
  match lookupK (c.slices d) dxyz.pos with
  | none => (c, [Ev.acq (Lk.slice d), Ev.rel (Lk.slice d)])
  | some ref =>
    let tr0 : List Ev := [Ev.acq (Lk.slice d), Ev.acq (Lk.slot dxyz)]
    if ref.count ≠ 0 then (c, tr0 ++ [Ev.rel (Lk.slot dxyz), Ev.rel (Lk.slice d)])
    else
      match ref.chunk with
      | some _ => (c, tr0 ++ [Ev.rel (Lk.slot dxyz), Ev.rel (Lk.slice d)])
      | none =>
        let c1 := setSlice c d (eraseK (c.slices d) dxyz.pos)
        ({ c1 with info := { c1.info with alive := c1.info.alive - 1 } },
         tr0 ++ [Ev.rel (Lk.slice d)])

/-- ChunkCache::maybeSerialize, lines 269-330: no-op when the slot is gone,
referenced again, or already contentless; otherwise release the slice lock,
save the chunk (writing its bytes and recording the point count into the
Hierarchy at the chunk key, asserting the count nonzero), bump the written
statistic, reset the chunk pointer, release the slot lock and try to erase. -/
def maybeSerialize (c : ChunkCache) (dxyz : Dxyz) : Option (ChunkCache × List Ev) :=
  let d := dxyz.depth
  match lookupK (c.slices d) dxyz.pos with
  | none => some (c, [Ev.acq (Lk.slice d), Ev.rel (Lk.slice d)])
  | some ref =>
    let tr0 : List Ev := [Ev.acq (Lk.slice d), Ev.acq (Lk.slot dxyz)]
    if ref.count ≠ 0 then some (c, tr0 ++ [Ev.rel (Lk.slot dxyz), Ev.rel (Lk.slice d)])
    else
      match ref.chunk with
      | none => some (c, tr0 ++ [Ev.rel (Lk.slot dxyz), Ev.rel (Lk.slice d)])
      | some ch =>
        -- assert(np)
        if ch.np = 0 then none
        else
          let c1 := { c with
            info := { c.info with written := c.info.written + 1 },
            saved := c.saved ++ [(ch.key, ch.np)],
            hierarchy := fun a => if a = ch.key then ch.np else c.hierarchy a }
          let c2 := setSlice c1 d (setK (c1.slices d) dxyz.pos { ref with chunk := none })
          let r3 := maybeErase c2 dxyz
          some (r3.1, tr0 ++ [Ev.rel (Lk.slice d), Ev.save dxyz, Ev.rel (Lk.slot dxyz)] ++ r3.2)

/-- Pool::join as the destructor sees it: run every queued maybeSerialize
task to completion, in queue order. -/
def joinAll : ChunkCache → List Dxyz → Option (ChunkCache × List Ev)
  | c, [] => some (c, [])
  | c, a :: rest =>
    match maybeSerialize c a with
    | none => none
    | some (c1, tr1) =>
      match joinAll c1 rest with
      | none => none
      | some (c2, tr2) => some (c2, tr1 ++ tr2)

/-- The destructor ChunkCache::~ChunkCache, lines 47-60: maybePurge(0), then
m_pool.join(), then the all-slices-empty assertion (checked by the claims,
not modelled as a crash). -/
def dtor (c : ChunkCache) : Option ChunkCache :=
  match maybePurge c 0 with
  | none => none
  | some (c1, _) =>
    match joinAll { c1 with queue := [] } c1.queue with
    | none => none
    | some (c2, _) => some c2

/-- The public operations of the cache, for reachability statements. -/
inductive Op where
  | addRef : Dxyz → Op
  | prune : Nat → List Xyz → Op
  | maybePurge : Nat → Op
  | maybeSerialize : Dxyz → Op
  | maybeErase : Dxyz → Op
  | latchInfo : Op

/-- Apply one operation to the state. -/
def applyOp (c : ChunkCache) : Op → Option (ChunkCache × List Ev)
  | Op.addRef a => addRef c a
  | Op.prune d stale => prune c d stale
  | Op.maybePurge n => maybePurge c n
  | Op.maybeSerialize a => maybeSerialize c a
  | Op.maybeErase a => some (maybeErase c a)
  | Op.latchInfo => some ((latchInfo c).2, [])

/-- The freshly constructed cache: empty slices, empty pool, zero counters,
an empty hierarchy, nothing saved and nothing queued. -/
def init : ChunkCache :=
  { slices := fun _ => [], owned := [], hierarchy := fun _ => 0,
    info := ⟨0, 0, 0⟩, saved := [], queue := [] }

/-- Run a sequence of operations from a state. -/
def runFrom (c : ChunkCache) : List Op → Option ChunkCache
  | [] => some c
  | op :: t =>
    match applyOp c op with
    | none => none
    | some (c1, _) => runFrom c1 t

/-- Run a sequence of operations from the freshly constructed cache. -/
def run (ops : List Op) : Option ChunkCache := runFrom init ops

/-- The reference count the cache records for an address. -/
def countAt (c : ChunkCache) (a : Dxyz) : Nat :=
  (lookupK (c.slices a.depth) a.pos).elim 0 (fun s => s.count)

/-- An address is present in the slice of a given depth. -/
def inSlice (c : ChunkCache) (d : Nat) (a : Dxyz) : Prop :=
  a.depth = d ∧ (lookupK (c.slices d) a.pos).isSome

theorem lookupK_setK_self {α : Type} (l : List (Xyz × α)) (k : Xyz) (v : α) :
    lookupK (setK l k v) k = some v := by
  induction l with
  | nil => simp [setK, lookupK]
  | cons h t ih =>
    obtain ⟨k', v'⟩ := h
    by_cases hk : k' = k
    · simp [setK, hk, lookupK]
    · simp [setK, hk, lookupK, ih]

theorem lookupK_setK_ne {α : Type} (l : List (Xyz × α)) (k k' : Xyz) (v : α)
    (h : k' ≠ k) : lookupK (setK l k v) k' = lookupK l k' := by
  induction l with
  | nil => simp [setK, lookupK, Ne.symm h]
  | cons p t ih =>
    obtain ⟨a, b⟩ := p
    by_cases ha : a = k
    · subst ha
      simp [setK, lookupK, Ne.symm h]
    · simp [setK, ha, lookupK, ih]

theorem lookupK_eraseK_ne {α : Type} (l : List (Xyz × α)) (k k' : Xyz)
    (h : k' ≠ k) : lookupK (eraseK l k) k' = lookupK l k' := by
  induction l with
  | nil => simp [eraseK]
  | cons p t ih =>
    obtain ⟨a, b⟩ := p
    by_cases ha : a = k
    · subst ha
      simp [eraseK, lookupK, Ne.symm h]
    · simp [eraseK, ha, lookupK, ih]

theorem lookupK_eq_none_of_not_mem {α : Type} (l : List (Xyz × α)) (k : Xyz)
    (h : k ∉ l.map Prod.fst) : lookupK l k = none := by
  induction l with
  | nil => rfl
  | cons p t ih =>
    obtain ⟨a, b⟩ := p
    simp only [List.map_cons, List.mem_cons] at h
    push_neg at h
    simp [lookupK, Ne.symm h.1, ih h.2]

theorem mem_keys_of_lookupK {α : Type} (l : List (Xyz × α)) (k : Xyz) (v : α)
    (h : lookupK l k = some v) : k ∈ l.map Prod.fst := by
  induction l with
  | nil => simp [lookupK] at h
  | cons p t ih =>
    obtain ⟨a, b⟩ := p
    by_cases ha : a = k
    · simp [ha]
    · simp [lookupK, ha] at h
      simp [ih h]

theorem lookupK_eraseK_self {α : Type} (l : List (Xyz × α)) (k : Xyz)
    (hnd : (l.map Prod.fst).Nodup) : lookupK (eraseK l k) k = none := by
  induction l with
  | nil => rfl
  | cons p t ih =>
    obtain ⟨a, b⟩ := p
    simp only [List.map_cons, List.nodup_cons] at hnd
    by_cases ha : a = k
    · subst ha
      simpa [eraseK] using lookupK_eq_none_of_not_mem t a hnd.1
    · simp [eraseK, ha, lookupK, ih hnd.2]

theorem keys_setK_of_lookup {α : Type} (l : List (Xyz × α)) (k : Xyz) (v v₀ : α)
    (h : lookupK l k = some v₀) : (setK l k v).map Prod.fst = l.map Prod.fst := by
  induction l with
  | nil => simp [lookupK] at h
  | cons p t ih =>
    obtain ⟨a, b⟩ := p
    by_cases ha : a = k
    · subst ha; simp [setK]
    · simp [lookupK, ha] at h
      simp [setK, ha, ih h]

theorem keys_eraseK_sublist {α : Type} (l : List (Xyz × α)) (k : Xyz) :
    ((eraseK l k).map Prod.fst).Sublist (l.map Prod.fst) := by
  induction l with
  | nil => simp [eraseK]
  | cons p t ih =>
    obtain ⟨a, b⟩ := p
    by_cases ha : a = k
    · simp only [eraseK, if_pos ha, List.map_cons]
      exact (List.sublist_cons_self a (t.map Prod.fst)).trans (List.Sublist.refl _) |>.trans
        (by simp)
    · simp only [eraseK, if_neg ha, List.map_cons]
      exact ih.cons₂ a

theorem keysND_eraseK {α : Type} (l : List (Xyz × α)) (k : Xyz)
    (h : (l.map Prod.fst).Nodup) : ((eraseK l k).map Prod.fst).Nodup :=
  (keys_eraseK_sublist l k).nodup h

theorem eq_nil_of_lookupK_none {α : Type} (l : List (Xyz × α))
    (h : ∀ k, lookupK l k = none) : l = [] := by
  cases l with
  | nil => rfl
  | cons p t =>
    obtain ⟨a, b⟩ := p
    have := h a
    simp [lookupK] at this

theorem mem_removeD_of_ne {l : List Dxyz} {a x : Dxyz} (h : x ≠ a) :
    x ∈ removeD l a ↔ x ∈ l := by
  induction l with
  | nil => simp [removeD]
  | cons b t ih =>
    by_cases hb : b = a
    · subst hb
      simp [removeD, ih, h]
    · simp [removeD, hb, ih]

theorem mem_of_mem_removeD {l : List Dxyz} {a x : Dxyz} (h : x ∈ removeD l a) : x ∈ l := by
  induction l with
  | nil => simp [removeD] at h
  | cons b t ih =>
    by_cases hb : b = a
    · subst hb
      simp only [removeD, if_pos rfl] at h
      exact List.mem_cons_of_mem _ h
    · simp only [removeD, if_neg hb, List.mem_cons] at h
      rcases h with h | h
      · exact h ▸ List.mem_cons_self b t
      · exact List.mem_cons_of_mem _ (ih h)

theorem not_mem_removeD_self {l : List Dxyz} {a : Dxyz} (h : l.Nodup) :
    a ∉ removeD l a := by
  induction l with
  | nil => simp [removeD]
  | cons b t ih =>
    simp only [List.nodup_cons] at h
    by_cases hb : b = a
    · subst hb
      simp only [removeD, if_pos rfl]
      exact h.1
    · simp only [removeD, if_neg hb, List.mem_cons]
      rintro (rfl | hm)
      · exact hb rfl
      · exact ih h.2 hm

theorem nodup_removeD {l : List Dxyz} {a : Dxyz} (h : l.Nodup) :
    (removeD l a).Nodup := by
  induction l with
  | nil => simp [removeD]
  | cons b t ih =>
    simp only [List.nodup_cons] at h
    by_cases hb : b = a
    · simp only [removeD, if_pos hb]
      exact h.2
    · simp only [removeD, if_neg hb, List.nodup_cons]
      exact ⟨fun hm => h.1 (mem_of_mem_removeD hm), ih h.2⟩

theorem length_removeD {l : List Dxyz} {a : Dxyz} (h : a ∈ l) :
    (removeD l a).length + 1 = l.length := by
  induction l with
  | nil => simp at h
  | cons b t ih =>
    by_cases hb : b = a
    · simp [removeD, hb]
    · rcases List.mem_cons.mp h with h1 | h1
      · exact absurd h1.symm hb
      · simp only [removeD, if_neg hb, List.length_cons]
        rw [← ih h1]

theorem perm_cons_removeD {l : List Dxyz} {a : Dxyz} (h : a ∈ l) :
    l.Perm (a :: removeD l a) := by
  induction l with
  | nil => simp at h
  | cons b t ih =>
    by_cases hb : b = a
    · subst hb
      simp [removeD]
    · rcases List.mem_cons.mp h with h1 | h1
      · exact absurd h1.symm hb
      · simp only [removeD, if_neg hb]
        exact (List.Perm.cons b (ih h1)).trans (List.Perm.swap a b _)

theorem dxyzLt_irrefl (a : Dxyz) : dxyzLt a a = false := by
  obtain ⟨ad, ax, ay, az⟩ := a
  simp [dxyzLt, xyzLt]

theorem dxyzLt_asymm {a b : Dxyz} (h : dxyzLt a b = true) : dxyzLt b a = false := by
  obtain ⟨ad, ax, ay, az⟩ := a
  obtain ⟨bd, bx, by', bz⟩ := b
  simp only [dxyzLt, xyzLt, Bool.or_eq_true, Bool.and_eq_true, decide_eq_true_eq,
    Bool.or_eq_false_iff, Bool.and_eq_false_iff, decide_eq_false_iff_not] at h ⊢
  omega

theorem dxyzLt_trans {a b c : Dxyz} (h1 : dxyzLt a b = true) (h2 : dxyzLt b c = true) :
    dxyzLt a c = true := by
  obtain ⟨ad, ax, ay, az⟩ := a
  obtain ⟨bd, bx, by', bz⟩ := b
  obtain ⟨cd, cx, cy, cz⟩ := c
  simp only [dxyzLt, xyzLt, Bool.or_eq_true, Bool.and_eq_true, decide_eq_true_eq] at h1 h2 ⊢
  omega

theorem dxyzLt_total {a b : Dxyz} (h : a ≠ b) :
    dxyzLt a b = true ∨ dxyzLt b a = true := by
  obtain ⟨ad, ax, ay, az⟩ := a
  obtain ⟨bd, bx, by', bz⟩ := b
  simp only [ne_eq, Dxyz.mk.injEq, Xyz.mk.injEq, not_and] at h
  simp only [dxyzLt, xyzLt, Bool.or_eq_true, Bool.and_eq_true, decide_eq_true_eq]
  by_cases hd : ad = bd
  · subst hd
    by_cases hx : ax = bx
    · subst hx
      by_cases hy : ay = by'
      · subst hy
        have hz : az ≠ bz := by
          intro hz
          exact h rfl rfl rfl hz
        omega
      · omega
    · omega
  · omega

theorem dxyzLe_trans {a b c : Dxyz} (h1 : a = b ∨ dxyzLt a b = true)
    (h2 : b = c ∨ dxyzLt b c = true) : a = c ∨ dxyzLt a c = true := by
  rcases h1 with rfl | h1
  · exact h2
  · rcases h2 with rfl | h2
    · exact Or.inr h1
    · exact Or.inr (dxyzLt_trans h1 h2)

theorem foldl_max_mem (t : List Dxyz) (a : Dxyz) :
    t.foldl (fun m b => if dxyzLt m b then b else m) a = a ∨
      t.foldl (fun m b => if dxyzLt m b then b else m) a ∈ t := by
  induction t generalizing a with
  | nil => exact Or.inl rfl
  | cons b t ih =>
    simp only [List.foldl_cons]
    rcases ih (if dxyzLt a b then b else a) with h | h
    · rw [h]
      by_cases hb : dxyzLt a b
      · exact Or.inr (by simp [hb])
      · exact Or.inl (by simp [hb])
    · exact Or.inr (List.mem_cons_of_mem _ h)

theorem foldl_max_ge (t : List Dxyz) (a : Dxyz) :
    (a = t.foldl (fun m b => if dxyzLt m b then b else m) a ∨
      dxyzLt a (t.foldl (fun m b => if dxyzLt m b then b else m) a) = true) ∧
    ∀ x ∈ t, x = t.foldl (fun m b => if dxyzLt m b then b else m) a ∨
      dxyzLt x (t.foldl (fun m b => if dxyzLt m b then b else m) a) = true := by
  induction t generalizing a with
  | nil => exact ⟨Or.inl rfl, by simp⟩
  | cons b t ih =>
    have step1 : a = (if dxyzLt a b then b else a) ∨
        dxyzLt a (if dxyzLt a b then b else a) = true := by
      by_cases hb : dxyzLt a b
      · simp [hb]
      · simp [hb]
    have step2 : b = (if dxyzLt a b then b else a) ∨
        dxyzLt b (if dxyzLt a b then b else a) = true := by
      by_cases hb : dxyzLt a b
      · simp [hb]
      · simp only [if_neg hb]
        by_cases hab : b = a
        · exact Or.inl hab
        · rcases dxyzLt_total hab with h1 | h1
          · exact Or.inr h1
          · exact absurd h1 (by simpa using hb)
    obtain ⟨ihle, ihall⟩ := ih (if dxyzLt a b then b else a)
    refine ⟨dxyzLe_trans step1 ihle, ?_⟩
    intro x hx
    rcases List.mem_cons.mp hx with rfl | hx
    · simpa using dxyzLe_trans step2 ihle
    · simpa using ihall x hx

theorem maxD_mem {l : List Dxyz} {m : Dxyz} (h : maxD l = some m) : m ∈ l := by
  cases l with
  | nil => simp [maxD] at h
  | cons a t =>
    simp only [maxD, Option.some.injEq] at h
    rcases foldl_max_mem t a with h1 | h1
    · rw [← h, h1]; exact List.mem_cons_self a t
    · rw [← h]; exact List.mem_cons_of_mem _ h1

theorem maxD_isMax {l : List Dxyz} {m : Dxyz} (h : maxD l = some m) :
    ∀ x ∈ l, x = m ∨ dxyzLt x m = true := by
  cases l with
  | nil => simp [maxD] at h
  | cons a t =>
    simp only [maxD, Option.some.injEq] at h
    intro x hx
    obtain ⟨hle, hall⟩ := foldl_max_ge t a
    rcases List.mem_cons.mp hx with rfl | hx
    · rw [← h]; exact hle
    · rw [← h]; exact hall x hx

theorem maxD_eq_some {l : List Dxyz} (h : l ≠ []) : ∃ m, maxD l = some m := by
  cases l with
  | nil => exact absurd rfl h
  | cons a t => exact ⟨_, rfl⟩

theorem maxD_perm {l l' : List Dxyz} {m : Dxyz} (h : maxD l = some m)
    (hp : l.Perm l') : maxD l' = some m := by
  have hne : l' ≠ [] := by
    intro he
    subst he
    have := hp.symm.length_eq
    cases l with
    | nil => simp [maxD] at h
    | cons a t => simp at this
  obtain ⟨m', hm'⟩ := maxD_eq_some hne
  have h1 : m' ∈ l := hp.mem_iff.mpr (maxD_mem hm')
  have h2 : m ∈ l' := hp.mem_iff.mp (maxD_mem h)
  rcases maxD_isMax h m' h1 with rfl | hlt1
  · exact hm'
  · rcases maxD_isMax hm' m h2 with rfl | hlt2
    · exact hm'
    · exact absurd hlt2 (by simp [dxyzLt_asymm hlt1])

theorem respects_append (r : Lk → Nat) (held : List Lk) (t1 t2 : List Ev) :
    respects r held (t1 ++ t2) =
      (respects r held t1 && respects r (holdsAfter held t1) t2) := by
  induction t1 generalizing held with
  | nil => simp [respects, holdsAfter]
  | cons e t ih =>
    cases e with
    | acq l => simp [respects, holdsAfter, ih, Bool.and_assoc]
    | rel l => simp [respects, holdsAfter, ih]
    | load a => simp [respects, holdsAfter, ih]
    | save a => simp [respects, holdsAfter, ih]

theorem holdsAfter_append (held : List Lk) (t1 t2 : List Ev) :
    holdsAfter held (t1 ++ t2) = holdsAfter (holdsAfter held t1) t2 := by
  induction t1 generalizing held with
  | nil => simp [holdsAfter]
  | cons e t ih =>
    cases e with
    | acq l => simp [holdsAfter, ih]
    | rel l => simp [holdsAfter, ih]
    | load a => simp [holdsAfter, ih]
    | save a => simp [holdsAfter, ih]

theorem addRefPool_respects (c1 : ChunkCache) (ck : Dxyz) (ref2 : NewReffedChunk)
    (tr1 : List Ev) (r : ChunkCache × List Ev) (h : addRefPool c1 ck ref2 tr1 = some r)
    (htr : respects codeRank [] tr1 = true)
    (hh : holdsAfter [] tr1 = [Lk.slot ck]) : respects codeRank [] r.2 = true := by
  by_cases hmem : ck ∈ c1.owned
  · by_cases h2 : ref2.count ≤ 1
    · simp only [addRefPool, if_pos hmem, if_pos h2] at h
      exact Option.noConfusion h
    · simp only [addRefPool, if_pos hmem, if_neg h2] at h
      cases h
      show respects codeRank []
        ((tr1 ++ [Ev.rel (Lk.slot ck), Ev.acq Lk.pool]) ++
          [Ev.acq (Lk.slot ck), Ev.rel Lk.pool, Ev.rel (Lk.slot ck)]) = true
      rw [respects_append, respects_append, holdsAfter_append, htr, hh]
      simp [respects, holdsAfter, codeRank, removeL]
  · simp only [addRefPool, if_neg hmem] at h
    cases h
    show respects codeRank []
      ((tr1 ++ [Ev.rel (Lk.slot ck), Ev.acq Lk.pool]) ++ [Ev.rel Lk.pool]) = true
    rw [respects_append, respects_append, holdsAfter_append, htr, hh]
    simp [respects, holdsAfter, codeRank, removeL]

theorem addRef_respects (c : ChunkCache) (ck : Dxyz) (r : ChunkCache × List Ev)
    (h : addRef c ck = some r) : respects codeRank [] r.2 = true := by
  rcases hcl : lookupK (c.slices ck.depth) ck.pos with _ | ref0
  · by_cases hnp : c.hierarchy ck = 0
    · simp only [addRef, hcl, hnp, if_pos] at h
      cases h
      simp [respects, codeRank, removeL]
    · simp only [addRef, hcl, if_neg hnp] at h
      cases h
      simp [respects, codeRank, removeL]
  · rcases hch : ref0.chunk with _ | ch
    · by_cases h1 : ref0.count + 1 = 1
      · by_cases hnp : c.hierarchy ck = 0
        · simp only [addRef, hcl, hch, if_pos h1, hnp, if_pos] at h
          exact Option.noConfusion h
        · simp only [addRef, hcl, hch, if_pos h1, if_neg hnp] at h
          refine addRefPool_respects _ _ _ _ _ h ?_ ?_
          · simp [respects, codeRank, removeL]
          · simp [holdsAfter, removeL]
      · simp only [addRef, hcl, hch, if_neg h1] at h
        exact Option.noConfusion h
    · simp only [addRef, hcl, hch] at h
      refine addRefPool_respects _ _ _ _ _ h ?_ ?_
      · simp [respects, codeRank, removeL]
      · simp [holdsAfter, removeL]

theorem pruneLoop_respects (d : Nat) :
    ∀ (stale : List Xyz) (c : ChunkCache) (r : ChunkCache × List Ev),
      pruneLoop c d stale = some r →
      respects codeRank [Lk.slice d] r.2 = true ∧
        holdsAfter [Lk.slice d] r.2 = [Lk.slice d] := by
  intro stale
  induction stale with
  | nil =>
    intro c r h
    simp only [pruneLoop] at h
    cases h
    simp [respects, holdsAfter]
  | cons k rest ih =>
    intro c r h
    rcases hcl : lookupK (c.slices d) k with _ | ref
    · simp only [pruneLoop, hcl] at h
      exact Option.noConfusion h
    · by_cases h0 : ref.count = 0
      · simp only [pruneLoop, hcl, if_pos h0] at h
        exact Option.noConfusion h
      · by_cases h1 : ref.count = 1
        · by_cases hmem : (⟨d, k⟩ : Dxyz) ∈
              (setSlice c d (setK (c.slices d) k { ref with count := 1 })).owned
          · simp only [pruneLoop, hcl, if_neg h0, if_pos h1, if_pos hmem] at h
            exact Option.noConfusion h
          · simp only [pruneLoop, hcl, if_neg h0, if_pos h1, if_neg hmem] at h
            rcases hrec : pruneLoop
                { setSlice c d (setK (c.slices d) k { ref with count := 1 }) with
                  owned := (⟨d, k⟩ : Dxyz) ::
                    (setSlice c d (setK (c.slices d) k { ref with count := 1 })).owned }
                d rest with _ | r1
            · rw [hrec] at h; cases h
            · rw [hrec] at h
              obtain ⟨c3, tr⟩ := r1
              cases h
              obtain ⟨ihr, ihh⟩ := ih _ _ hrec
              simp only [respects_append, holdsAfter_append]
              constructor
              · have hseg : respects codeRank [Lk.slice d]
                    [Ev.acq (Lk.slot ⟨d, k⟩), Ev.rel (Lk.slot ⟨d, k⟩), Ev.rel (Lk.slice d),
                     Ev.acq Lk.pool, Ev.rel Lk.pool, Ev.acq (Lk.slice d)] = true := by
                  simp [respects, codeRank, removeL]
                have hsegH : holdsAfter [Lk.slice d]
                    [Ev.acq (Lk.slot ⟨d, k⟩), Ev.rel (Lk.slot ⟨d, k⟩), Ev.rel (Lk.slice d),
                     Ev.acq Lk.pool, Ev.rel Lk.pool, Ev.acq (Lk.slice d)] = [Lk.slice d] := by
                  simp [holdsAfter, removeL]
                rw [hseg, hsegH, ihr]
                rfl
              · have hsegH : holdsAfter [Lk.slice d]
                    [Ev.acq (Lk.slot ⟨d, k⟩), Ev.rel (Lk.slot ⟨d, k⟩), Ev.rel (Lk.slice d),
                     Ev.acq Lk.pool, Ev.rel Lk.pool, Ev.acq (Lk.slice d)] = [Lk.slice d] := by
                  simp [holdsAfter, removeL]
                rw [hsegH, ihh]
        · simp only [pruneLoop, hcl, if_neg h0, if_neg h1] at h
          rcases hrec : pruneLoop
              (setSlice c d (setK (c.slices d) k { ref with count := ref.count - 1 }))
              d rest with _ | r1
          · rw [hrec] at h; cases h
          · rw [hrec] at h
            obtain ⟨c2, tr⟩ := r1
            cases h
            obtain ⟨ihr, ihh⟩ := ih _ _ hrec
            simp only [respects_append, holdsAfter_append]
            constructor
            · have hseg : respects codeRank [Lk.slice d]
                  [Ev.acq (Lk.slot ⟨d, k⟩), Ev.rel (Lk.slot ⟨d, k⟩)] = true := by
                simp [respects, codeRank, removeL]
              have hsegH : holdsAfter [Lk.slice d]
                  [Ev.acq (Lk.slot ⟨d, k⟩), Ev.rel (Lk.slot ⟨d, k⟩)] = [Lk.slice d] := by
                simp [holdsAfter, removeL]
              rw [hseg, hsegH, ihr]
              rfl
            · have hsegH : holdsAfter [Lk.slice d]
                  [Ev.acq (Lk.slot ⟨d, k⟩), Ev.rel (Lk.slot ⟨d, k⟩)] = [Lk.slice d] := by
                simp [holdsAfter, removeL]
              rw [hsegH, ihh]

theorem prune_respects (c : ChunkCache) (d : Nat) (stale : List Xyz)
    (r : ChunkCache × List Ev) (h : prune c d stale = some r) :
    respects codeRank [] r.2 = true := by
  by_cases hs : stale = []
  · simp only [prune, if_pos hs] at h
    cases h
    simp [respects]
  · simp only [prune, if_neg hs] at h
    rcases hrec : pruneLoop c d stale with _ | r1
    · rw [hrec] at h
      exact Option.noConfusion h
    · rw [hrec] at h
      obtain ⟨c1, tr⟩ := r1
      cases h
      obtain ⟨hr, hh⟩ := pruneLoop_respects d stale c _ hrec
      have hr' : respects codeRank [Lk.slice d] tr = true := hr
      have hh' : holdsAfter [Lk.slice d] tr = [Lk.slice d] := hh
      show respects codeRank [] (Ev.acq (Lk.slice d) :: (tr ++ [Ev.rel (Lk.slice d)])) = true
      simp only [respects, List.all_nil, Bool.true_and, respects_append, hr', hh']

theorem purgeBody_respects (c : ChunkCache) (n : Nat) (r : ChunkCache × List Ev)
    (h : purgeBody c n = some r) :
    respects codeRank [Lk.pool] r.2 = true ∧ holdsAfter [Lk.pool] r.2 = [Lk.pool] := by
  rcases hmx : maxD c.owned with _ | dxyz
  · simp only [purgeBody, hmx] at h
    exact Option.noConfusion h
  · rcases hcl : lookupK (c.slices dxyz.depth) dxyz.pos with _ | ref
    · simp only [purgeBody, hmx, hcl] at h
      exact Option.noConfusion h
    · by_cases ha : n = 0 ∧ ref.count ≠ 1
      · simp only [purgeBody, hmx, hcl, if_pos ha] at h
        exact Option.noConfusion h
      · by_cases h1 : ref.count = 1
        · simp only [purgeBody, hmx, hcl, if_neg ha, if_pos h1] at h
          cases h
          constructor
          · simp [respects, codeRank, removeL]
          · simp [holdsAfter, removeL]
        · simp only [purgeBody, hmx, hcl, if_neg ha, if_neg h1] at h
          cases h
          constructor
          · simp [respects, codeRank, removeL]
          · simp [holdsAfter, removeL]

theorem purgeLoop_respects :
    ∀ (fuel : Nat) (c : ChunkCache) (n : Nat) (r : ChunkCache × List Ev),
      purgeLoop fuel c n = some r →
      respects codeRank [Lk.pool] r.2 = true ∧ holdsAfter [Lk.pool] r.2 = [Lk.pool] := by
  intro fuel
  induction fuel with
  | zero =>
    intro c n r h
    simp only [purgeLoop] at h
    cases h
    simp [respects, holdsAfter]
  | succ fuel ih =>
    intro c n r h
    by_cases hgt : c.owned.length > n
    · rcases hb : purgeBody c n with _ | r1
      · simp only [purgeLoop, if_pos hgt, hb] at h
        exact Option.noConfusion h
      · obtain ⟨c1, tr1⟩ := r1
        rcases hrec : purgeLoop fuel c1 n with _ | r2
        · simp only [purgeLoop, if_pos hgt, hb, hrec] at h
          exact Option.noConfusion h
        · obtain ⟨c2, tr2⟩ := r2
          simp only [purgeLoop, if_pos hgt, hb, hrec] at h
          cases h
          obtain ⟨hbr, hbh⟩ := purgeBody_respects c n _ hb
          obtain ⟨hlr, hlh⟩ := ih c1 n _ hrec
          have hbr' : respects codeRank [Lk.pool] tr1 = true := hbr
          have hbh' : holdsAfter [Lk.pool] tr1 = [Lk.pool] := hbh
          have hlr' : respects codeRank [Lk.pool] tr2 = true := hlr
          have hlh' : holdsAfter [Lk.pool] tr2 = [Lk.pool] := hlh
          constructor
          · show respects codeRank [Lk.pool] (tr1 ++ tr2) = true
            rw [respects_append, hbr', hbh', hlr']
            rfl
          · show holdsAfter [Lk.pool] (tr1 ++ tr2) = [Lk.pool]
            rw [holdsAfter_append, hbh', hlh']
    · simp only [purgeLoop, if_neg hgt] at h
      cases h
      simp [respects, holdsAfter]

theorem maybePurge_respects (c : ChunkCache) (n : Nat) (r : ChunkCache × List Ev)
    (h : maybePurge c n = some r) : respects codeRank [] r.2 = true := by
  rcases hl : purgeLoop c.owned.length c n with _ | r1
  · simp only [maybePurge, hl] at h
    exact Option.noConfusion h
  · simp only [maybePurge, hl] at h
    obtain ⟨c1, tr⟩ := r1
    cases h
    obtain ⟨hr, hh⟩ := purgeLoop_respects c.owned.length c n _ hl
    have hr' : respects codeRank [Lk.pool] tr = true := hr
    have hh' : holdsAfter [Lk.pool] tr = [Lk.pool] := hh
    show respects codeRank [] (Ev.acq Lk.pool :: (tr ++ [Ev.rel Lk.pool])) = true
    simp only [respects, List.all_nil, Bool.true_and, respects_append, hr', hh']

theorem maybeErase_respects (c : ChunkCache) (a : Dxyz) :
    respects codeRank [] (maybeErase c a).2 = true := by
  rcases hcl : lookupK (c.slices a.depth) a.pos with _ | ref
  · simp [maybeErase, hcl, respects, codeRank, removeL]
  · by_cases h0 : ref.count ≠ 0
    · simp [maybeErase, hcl, if_pos h0, respects, codeRank, removeL]
    · rcases hch : ref.chunk with _ | ch
      · simp [maybeErase, hcl, if_neg h0, hch, respects, codeRank, removeL]
      · simp [maybeErase, hcl, if_neg h0, hch, respects, codeRank, removeL]

theorem maybeSerialize_respects (c : ChunkCache) (a : Dxyz) (r : ChunkCache × List Ev)
    (h : maybeSerialize c a = some r) : respects codeRank [] r.2 = true := by
  rcases hcl : lookupK (c.slices a.depth) a.pos with _ | ref
  · simp only [maybeSerialize, hcl] at h
    cases h
    simp [respects, codeRank, removeL]
  · by_cases h0 : ref.count ≠ 0
    · simp only [maybeSerialize, hcl, if_pos h0] at h
      cases h
      simp [respects, codeRank, removeL]
    · rcases hch : ref.chunk with _ | ch
      · simp only [maybeSerialize, hcl, if_neg h0, hch] at h
        cases h
        simp [respects, codeRank, removeL]
      · by_cases hnp : ch.np = 0
        · simp only [maybeSerialize, hcl, if_neg h0, hch, if_pos hnp] at h
          exact Option.noConfusion h
        · simp only [maybeSerialize, hcl, if_neg h0, hch, if_neg hnp] at h
          cases h
          simp only [List.append_assoc, List.cons_append, List.nil_append]
          simp only [respects, codeRank, removeL, List.all_cons, List.all_nil,
            decide_True, Bool.and_true, Bool.true_and, if_pos, if_neg]
          simp [respects, codeRank, removeL, maybeErase_respects _ a]

/-- A position and address used by concrete test states. -/
def p0 : Xyz := ⟨0, 0, 0⟩

/-- The address at depth 0, position p0. -/
def a0 : Dxyz := ⟨0, p0⟩

/-- A cache holding one pooled chunk at address a0 with reference count 1,
as left behind by a prune that dereferenced it to zero. -/
def cLock : ChunkCache :=
  { slices := fun d =>
      if d = 0 then [(p0, { count := 1, chunk := some { key := a0, np := 5 } })] else [],
    owned := [a0], hierarchy := fun _ => 0, info := ⟨1, 0, 0⟩, saved := [], queue := [] }

/-- Claim C1, counterexample: the order the spec states (slice, then slot,
then pool, outer to inner) is violated by maybePurge, which acquires the
pool lock first and then the slice and slot locks while still holding it;
on the concrete state cLock the purge trace fails the claimed ranking. -/
theorem C1_counterexample :
    Option.map (fun r => respects claimedRank [] r.2) (maybePurge cLock 0) = some false := by
  decide

/-- Claim C1 (amended): in every operation of the cache, locks are acquired
consistently with the global order pool lock, then per-depth slice lock,
then per-slot chunk lock, outermost to innermost: no step acquires a lock
while holding a lock that is inner to it.  In particular maybePurge takes
the pool lock first and then slice and slot locks, and the pool-reclaim
branch of addRef retakes the slot lock while holding the pool lock. -/
theorem C1_lock_order (c : ChunkCache) (op : Op) (r : ChunkCache × List Ev)
    (h : applyOp c op = some r) : respects codeRank [] r.2 = true := by
  cases op with
  | addRef a => exact addRef_respects c a r h
  | prune d stale => exact prune_respects c d stale r h
  | maybePurge n => exact maybePurge_respects c n r h
  | maybeSerialize a => exact maybeSerialize_respects c a r h
  | maybeErase a =>
    simp only [applyOp] at h
    cases h
    exact maybeErase_respects c a
  | latchInfo =>
    simp only [applyOp] at h
    cases h
    rfl

/-- Witness for C1_lock_order at a concrete input. -/
theorem C1_lock_order_witness :
    respects codeRank [] [Ev.acq Lk.pool, Ev.rel Lk.pool] = true :=
  C1_lock_order init (Op.maybePurge 0) (init, [Ev.acq Lk.pool, Ev.rel Lk.pool]) rfl

theorem setSlice_slices_self (c : ChunkCache) (d : Nat) (s : List (Xyz × NewReffedChunk)) :
    (setSlice c d s).slices d = s := by
  simp [setSlice]

theorem setSlice_owned (c : ChunkCache) (d : Nat) (s : List (Xyz × NewReffedChunk)) :
    (setSlice c d s).owned = c.owned := rfl

theorem setSlice_info (c : ChunkCache) (d : Nat) (s : List (Xyz × NewReffedChunk)) :
    (setSlice c d s).info = c.info := rfl

theorem setSlice_hierarchy (c : ChunkCache) (d : Nat) (s : List (Xyz × NewReffedChunk)) :
    (setSlice c d s).hierarchy = c.hierarchy := rfl

theorem setSlice_saved (c : ChunkCache) (d : Nat) (s : List (Xyz × NewReffedChunk)) :
    (setSlice c d s).saved = c.saved := rfl

theorem setSlice_queue (c : ChunkCache) (d : Nat) (s : List (Xyz × NewReffedChunk)) :
    (setSlice c d s).queue = c.queue := rfl

theorem bumpRead_slices (c : ChunkCache) : (bumpRead c).slices = c.slices := rfl

theorem bumpRead_owned (c : ChunkCache) : (bumpRead c).owned = c.owned := rfl

theorem bumpRead_alive (c : ChunkCache) : (bumpRead c).info.alive = c.info.alive := rfl

theorem bumpRead_read (c : ChunkCache) : (bumpRead c).info.read = c.info.read + 1 := rfl

theorem setSlice_slices_ne (c : ChunkCache) {d d' : Nat} (s : List (Xyz × NewReffedChunk))
    (h : d' ≠ d) : (setSlice c d s).slices d' = c.slices d' := by
  simp [setSlice, h]

/-- Claim C6: latchInfo atomically returns the current statistics and resets
the written and read counters to zero, leaving the alive counter and every
other component of the state unchanged; two consecutive snapshots with no
intervening operation return zero written and read in the second snapshot
and the same alive value in both. -/
theorem C6_latchInfo (c : ChunkCache) :
    (latchInfo c).1 = c.info ∧
    ((latchInfo c).2).info = { alive := c.info.alive, written := 0, read := 0 } ∧
    ((latchInfo c).2).slices = c.slices ∧
    ((latchInfo c).2).owned = c.owned ∧
    ((latchInfo c).2).hierarchy = c.hierarchy ∧
    ((latchInfo c).2).saved = c.saved ∧
    ((latchInfo c).2).queue = c.queue ∧
    (latchInfo ((latchInfo c).2)).1.written = 0 ∧
    (latchInfo ((latchInfo c).2)).1.read = 0 ∧
    (latchInfo ((latchInfo c).2)).1.alive = (latchInfo c).1.alive :=
  ⟨rfl, rfl, rfl, rfl, rfl, rfl, rfl, rfl, rfl, rfl⟩

theorem pruneLoop_bad (d : Nat) :
    ∀ (stale : List Xyz) (c : ChunkCache) (k : Xyz), k ∈ stale →
      (lookupK (c.slices d) k = none ∨
        ∃ s, lookupK (c.slices d) k = some s ∧ s.count = 0) →
      pruneLoop c d stale = none := by
  intro stale
  induction stale with
  | nil => intro c k hk; simp at hk
  | cons k0 rest ih =>
    intro c k hk hbad
    by_cases he : k0 = k
    · subst he
      rcases hbad with hb | ⟨s, hb, hs0⟩
      · simp [pruneLoop, hb]
      · simp [pruneLoop, hb, hs0]
    · have hkr : k ∈ rest := by
        rcases List.mem_cons.mp hk with h1 | h1
        · exact absurd h1.symm he
        · exact h1
      rcases hcl : lookupK (c.slices d) k0 with _ | ref
      · simp [pruneLoop, hcl]
      · by_cases h0 : ref.count = 0
        · simp [pruneLoop, hcl, h0]
        · have hbad1 : ∀ v : NewReffedChunk,
              lookupK ((setSlice c d (setK (c.slices d) k0 v)).slices d) k = none ∨
              ∃ s, lookupK ((setSlice c d (setK (c.slices d) k0 v)).slices d) k = some s ∧
                s.count = 0 := by
            intro v
            rw [setSlice_slices_self, lookupK_setK_ne _ _ _ _ (fun hh => he hh.symm)]
            exact hbad
          by_cases h1 : ref.count = 1
          · by_cases hmem : (⟨d, k0⟩ : Dxyz) ∈
                (setSlice c d (setK (c.slices d) k0 { ref with count := 1 })).owned
            · simp [pruneLoop, hcl, h0, h1, hmem]
            · simp only [pruneLoop, hcl, if_neg h0, if_pos h1, if_neg hmem]
              rw [ih _ k hkr ?_]
              exact hbad1 { ref with count := 1 }
          · simp only [pruneLoop, hcl, if_neg h0, if_neg h1]
            rw [ih _ k hkr ?_]
            exact hbad1 { ref with count := ref.count - 1 }

/-- Claim C10: prune has an undocumented precondition enforced by fatal
assertions: every address of the stale map must already be present in the
slice of that depth with a nonzero reference count; prune never skips an
unknown or zero-referenced entry, it dies on the assertion instead. -/
theorem C10_prune_asserts (c : ChunkCache) (d : Nat) (stale : List Xyz) (k : Xyz)
    (hk : k ∈ stale)
    (hbad : lookupK (c.slices d) k = none ∨
      ∃ s, lookupK (c.slices d) k = some s ∧ s.count = 0) :
    prune c d stale = none := by
  have hne : stale ≠ [] := by
    intro hnil
    subst hnil
    simp at hk
  simp [prune, hne, pruneLoop_bad d stale c k hk hbad]

/-- Witness for C10_prune_asserts at a concrete input. -/
theorem C10_prune_asserts_witness : prune init 0 [p0] = none :=
  C10_prune_asserts init 0 [p0] p0 (by simp) (Or.inl rfl)

theorem pruneLoop_preserves (d : Nat) :
    ∀ (l : List Xyz) (c c' : ChunkCache) (tr : List Ev),
      pruneLoop c d l = some (c', tr) →
      (∀ k, k ∉ l → lookupK (c'.slices d) k = lookupK (c.slices d) k) ∧
      (∀ a, a ∈ c.owned → a ∈ c'.owned) := by
  intro l
  induction l with
  | nil =>
    intro c c' tr h
    simp only [pruneLoop] at h
    cases h
    exact ⟨fun k _ => rfl, fun a ha => ha⟩
  | cons k0 rest ih =>
    intro c c' tr h
    rcases hcl : lookupK (c.slices d) k0 with _ | ref
    · simp only [pruneLoop, hcl] at h
      exact Option.noConfusion h
    · by_cases h0 : ref.count = 0
      · simp only [pruneLoop, hcl, if_pos h0] at h
        exact Option.noConfusion h
      · by_cases h1 : ref.count = 1
        · by_cases hmem : (⟨d, k0⟩ : Dxyz) ∈
              (setSlice c d (setK (c.slices d) k0 { ref with count := 1 })).owned
          · simp only [pruneLoop, hcl, if_neg h0, if_pos h1, if_pos hmem] at h
            exact Option.noConfusion h
          · simp only [pruneLoop, hcl, if_neg h0, if_pos h1, if_neg hmem] at h
            rcases hrec : pruneLoop
                { setSlice c d (setK (c.slices d) k0 { ref with count := 1 }) with
                  owned := (⟨d, k0⟩ : Dxyz) ::
                    (setSlice c d (setK (c.slices d) k0 { ref with count := 1 })).owned }
                d rest with _ | r1
            · rw [hrec] at h
              exact Option.noConfusion h
            · rw [hrec] at h
              obtain ⟨c3, tr3⟩ := r1
              cases h
              obtain ⟨ihk, iho⟩ := ih _ _ _ hrec
              constructor
              · intro k hk
                have hk0 : k ≠ k0 := fun hh => hk (hh ▸ List.mem_cons_self k0 rest)
                have hkrest : k ∉ rest := fun hh => hk (List.mem_cons_of_mem _ hh)
                rw [ihk k hkrest]
                show lookupK ((setSlice c d (setK (c.slices d) k0
                  { ref with count := 1 })).slices d) k = lookupK (c.slices d) k
                rw [setSlice_slices_self, lookupK_setK_ne _ _ _ _ hk0]
              · intro a ha
                exact iho a (List.mem_cons_of_mem _ ha)
        · simp only [pruneLoop, hcl, if_neg h0, if_neg h1] at h
          rcases hrec : pruneLoop
              (setSlice c d (setK (c.slices d) k0 { ref with count := ref.count - 1 }))
              d rest with _ | r1
          · rw [hrec] at h
            exact Option.noConfusion h
          · rw [hrec] at h
            obtain ⟨c2, tr2⟩ := r1
            cases h
            obtain ⟨ihk, iho⟩ := ih _ _ _ hrec
            constructor
            · intro k hk
              have hk0 : k ≠ k0 := fun hh => hk (hh ▸ List.mem_cons_self k0 rest)
              have hkrest : k ∉ rest := fun hh => hk (List.mem_cons_of_mem _ hh)
              rw [ihk k hkrest]
              rw [setSlice_slices_self, lookupK_setK_ne _ _ _ _ hk0]
            · intro a ha
              exact iho a ha

theorem pruneLoop_spec (d : Nat) :
    ∀ (l : List Xyz) (c c' : ChunkCache) (tr : List Ev),
      l.Nodup → pruneLoop c d l = some (c', tr) →
      ∀ k ∈ l, ∃ s, lookupK (c.slices d) k = some s ∧ s.count ≠ 0 ∧
        ∃ s', lookupK (c'.slices d) k = some s' ∧ s'.chunk = s.chunk ∧
          s'.count = (if s.count = 1 then 1 else s.count - 1) ∧
          (s.count = 1 → (⟨d, k⟩ : Dxyz) ∈ c'.owned ∧ (⟨d, k⟩ : Dxyz) ∉ c.owned) := by
  intro l
  induction l with
  | nil => intro c c' tr _ h k hk; simp at hk
  | cons k0 rest ih =>
    intro c c' tr hnd h k hk
    have hnd0 : k0 ∉ rest := (List.nodup_cons.mp hnd).1
    have hndr : rest.Nodup := (List.nodup_cons.mp hnd).2
    rcases hcl : lookupK (c.slices d) k0 with _ | ref
    · simp only [pruneLoop, hcl] at h
      exact Option.noConfusion h
    · by_cases h0 : ref.count = 0
      · simp only [pruneLoop, hcl, if_pos h0] at h
        exact Option.noConfusion h
      · by_cases h1 : ref.count = 1
        · by_cases hmem : (⟨d, k0⟩ : Dxyz) ∈
              (setSlice c d (setK (c.slices d) k0 { ref with count := 1 })).owned
          · simp only [pruneLoop, hcl, if_neg h0, if_pos h1, if_pos hmem] at h
            exact Option.noConfusion h
          · simp only [pruneLoop, hcl, if_neg h0, if_pos h1, if_neg hmem] at h
            rcases hrec : pruneLoop
                { setSlice c d (setK (c.slices d) k0 { ref with count := 1 }) with
                  owned := (⟨d, k0⟩ : Dxyz) ::
                    (setSlice c d (setK (c.slices d) k0 { ref with count := 1 })).owned }
                d rest with _ | r1
            · rw [hrec] at h
              exact Option.noConfusion h
            · rw [hrec] at h
              obtain ⟨c3, tr3⟩ := r1
              cases h
              obtain ⟨ihk, iho⟩ := pruneLoop_preserves d rest _ _ _ hrec
              rcases List.mem_cons.mp hk with rfl | hkr
              · refine ⟨ref, hcl, h0, { ref with count := 1 }, ?_, rfl, by simp [h1], ?_⟩
                · rw [ihk k hnd0, setSlice_slices_self, lookupK_setK_self]
                · intro _
                  exact ⟨iho _ (List.mem_cons_self _ _), hmem⟩
              · have hne : k ≠ k0 := fun hh => hnd0 (hh ▸ hkr)
                obtain ⟨s, hs, hs0, s', hs', hsc, hscnt, hso⟩ := ih _ _ _ hndr hrec k hkr
                rw [setSlice_slices_self, lookupK_setK_ne _ _ _ _ hne] at hs
                refine ⟨s, hs, hs0, s', hs', hsc, hscnt, ?_⟩
                intro hc1
                obtain ⟨ho1, ho2⟩ := hso hc1
                refine ⟨ho1, fun hco => ho2 (List.mem_cons_of_mem _ hco)⟩
        · simp only [pruneLoop, hcl, if_neg h0, if_neg h1] at h
          rcases hrec : pruneLoop
              (setSlice c d (setK (c.slices d) k0 { ref with count := ref.count - 1 }))
              d rest with _ | r1
          · rw [hrec] at h
            exact Option.noConfusion h
          · rw [hrec] at h
            obtain ⟨c2, tr2⟩ := r1
            cases h
            obtain ⟨ihk, iho⟩ := pruneLoop_preserves d rest _ _ _ hrec
            rcases List.mem_cons.mp hk with rfl | hkr
            · refine ⟨ref, hcl, h0, { ref with count := ref.count - 1 }, ?_, rfl,
                by simp [h1], fun hc1 => absurd hc1 h1⟩
              rw [ihk k hnd0, setSlice_slices_self, lookupK_setK_self]
            · have hne : k ≠ k0 := fun hh => hnd0 (hh ▸ hkr)
              obtain ⟨s, hs, hs0, s', hs', hsc, hscnt, hso⟩ := ih _ _ _ hndr hrec k hkr
              rw [setSlice_slices_self, lookupK_setK_ne _ _ _ _ hne] at hs
              exact ⟨s, hs, hs0, s', hs', hsc, hscnt, hso⟩

/-- Claim C3: for every non-empty stale map passed to prune, each listed
slot has its reference count decremented exactly once; whenever the
decrement would reach zero the count is put back to 1 (ownership moving to
the pool) and the address is inserted into the Eviction Pool, which did not
already contain it, so no processed slot is ever left at reference count
zero; prune on an empty stale map changes nothing. -/
theorem C3_prune (c : ChunkCache) (d : Nat) (stale : List Xyz) (c' : ChunkCache)
    (tr : List Ev) (hnd : stale.Nodup) (h : prune c d stale = some (c', tr)) :
    (∀ k ∈ stale, ∃ s, lookupK (c.slices d) k = some s ∧ s.count ≠ 0 ∧
      ∃ s', lookupK (c'.slices d) k = some s' ∧ s'.chunk = s.chunk ∧
        s'.count = (if s.count = 1 then 1 else s.count - 1) ∧ s'.count ≠ 0 ∧
        (s.count = 1 → (⟨d, k⟩ : Dxyz) ∈ c'.owned ∧ (⟨d, k⟩ : Dxyz) ∉ c.owned)) ∧
    (stale = [] → c' = c ∧ tr = []) := by
  by_cases hs : stale = []
  · subst hs
    simp only [prune, if_pos rfl] at h
    cases h
    exact ⟨fun k hk => by simp at hk, fun _ => ⟨rfl, rfl⟩⟩
  · simp only [prune, if_neg hs] at h
    rcases hrec : pruneLoop c d stale with _ | r1
    · rw [hrec] at h
      exact Option.noConfusion h
    · rw [hrec] at h
      obtain ⟨c1, tr1⟩ := r1
      cases h
      refine ⟨?_, fun he => absurd he hs⟩
      intro k hk
      obtain ⟨s, hs1, hs0, s', hs', hsc, hscnt, hso⟩ :=
        pruneLoop_spec d stale c _ _ hnd hrec k hk
      refine ⟨s, hs1, hs0, s', hs', hsc, hscnt, ?_, hso⟩
      rw [hscnt]
      by_cases hone : s.count = 1
      · simp [hone]
      · simp only [if_neg hone]
        omega

/-- Witness for C3_prune at a concrete input: a two-chunk slice where one
count drops from 2 to 1 and the other transfers to the pool. -/
def cPrune : ChunkCache :=
  { slices := fun d =>
      if d = 0 then
        [(p0, { count := 2, chunk := some { key := a0, np := 3 } }),
         (⟨1, 0, 0⟩, { count := 1, chunk := some { key := ⟨0, ⟨1, 0, 0⟩⟩, np := 4 } })]
      else [],
    owned := [], hierarchy := fun _ => 0, info := ⟨2, 0, 0⟩, saved := [], queue := [] }

/-- Witness for C3_prune: instantiation at the concrete state cPrune. -/
theorem C3_prune_witness :
    (∀ k ∈ [p0, (⟨1, 0, 0⟩ : Xyz)], ∃ s, lookupK (cPrune.slices 0) k = some s ∧
      s.count ≠ 0 ∧
      ∃ s', lookupK ((prune cPrune 0 [p0, ⟨1, 0, 0⟩]).elim cPrune Prod.fst |>.slices 0) k
          = some s' ∧ s'.chunk = s.chunk ∧
        s'.count = (if s.count = 1 then 1 else s.count - 1) ∧ s'.count ≠ 0 ∧
        (s.count = 1 →
          (⟨0, k⟩ : Dxyz) ∈ ((prune cPrune 0 [p0, ⟨1, 0, 0⟩]).elim cPrune Prod.fst).owned ∧
          (⟨0, k⟩ : Dxyz) ∉ cPrune.owned)) ∧
    ([p0, (⟨1, 0, 0⟩ : Xyz)] = ([] : List Xyz) →
      (prune cPrune 0 [p0, ⟨1, 0, 0⟩]).elim cPrune Prod.fst = cPrune) := by
  have h := C3_prune cPrune 0 [p0, ⟨1, 0, 0⟩]
    ((prune cPrune 0 [p0, ⟨1, 0, 0⟩]).elim cPrune Prod.fst)
    ((prune cPrune 0 [p0, ⟨1, 0, 0⟩]).elim ([] : List Ev) Prod.snd)
    (by decide) (by rfl)
  exact ⟨h.1, fun he => (h.2 he).1⟩

/-- Claim C5: while the pool exceeds the requested maximum, each iteration
of maybePurge selects the address that is greatest under the ChunkAddress
order (lexicographic by depth then position) and removes it from the pool;
the selection is deterministic and independent of the order in which
addresses were inserted into the pool. -/
theorem C5_evict_greatest (c : ChunkCache) (n : Nat) (hnd : c.owned.Nodup)
    (hne : c.owned ≠ []) :
    ∃ m, maxD c.owned = some m ∧ m ∈ c.owned ∧
      (∀ x ∈ c.owned, x = m ∨ dxyzLt x m = true) ∧
      (∀ l', c.owned.Perm l' → maxD l' = some m) ∧
      (∀ r, purgeBody c n = some r → r.1.owned = removeD c.owned m ∧ m ∉ r.1.owned) := by
  obtain ⟨m, hm⟩ := maxD_eq_some hne
  refine ⟨m, hm, maxD_mem hm, maxD_isMax hm, fun l' hp => maxD_perm hm hp, ?_⟩
  intro r h
  rcases hcl : lookupK (c.slices m.depth) m.pos with _ | ref
  · simp only [purgeBody, hm, hcl] at h
    exact Option.noConfusion h
  · by_cases ha : n = 0 ∧ ref.count ≠ 1
    · simp only [purgeBody, hm, hcl, if_pos ha] at h
      exact Option.noConfusion h
    · by_cases h1 : ref.count = 1
      · simp only [purgeBody, hm, hcl, if_neg ha, if_pos h1] at h
        cases h
        exact ⟨rfl, not_mem_removeD_self hnd⟩
      · simp only [purgeBody, hm, hcl, if_neg ha, if_neg h1] at h
        cases h
        exact ⟨rfl, not_mem_removeD_self hnd⟩

/-- A cache whose pool holds the two addresses of the eviction tie-break
scenario of the spec, inserted in increasing order. -/
def cEvict : ChunkCache :=
  { slices := fun d =>
      if d = 2 then [(⟨1, 0, 0⟩, { count := 1, chunk := some { key := ⟨2, ⟨1, 0, 0⟩⟩, np := 3 } })]
      else if d = 3 then [(p0, { count := 1, chunk := some { key := ⟨3, p0⟩, np := 4 } })]
      else [],
    owned := [⟨2, ⟨1, 0, 0⟩⟩, ⟨3, p0⟩],
    hierarchy := fun _ => 0, info := ⟨2, 0, 0⟩, saved := [], queue := [] }

/-- Witness for C5_evict_greatest: on cEvict the deeper address, depth 3,
is selected whatever the insertion order was. -/
theorem C5_evict_greatest_witness :
    ∃ m, maxD cEvict.owned = some m ∧ m ∈ cEvict.owned ∧
      (∀ x ∈ cEvict.owned, x = m ∨ dxyzLt x m = true) ∧
      (∀ l', cEvict.owned.Perm l' → maxD l' = some m) ∧
      (∀ r, purgeBody cEvict 0 = some r →
        r.1.owned = removeD cEvict.owned m ∧ m ∉ r.1.owned) :=
  C5_evict_greatest cEvict 0 (by decide) (by decide)

/-- Claim C7: when addRef is called for an address with no existing slot
entry, it creates exactly one fresh slot, increments the alive statistic by
exactly 1, sets the reference count of the new slot to 1, and loads
persisted content, incrementing the read statistic, if and only if the
Hierarchy reports a nonzero prior point count for the address; the rest of
the cache is untouched, and a second addRef on the same address finds that
single slot, leaves alive unchanged and brings the reference count to 2. -/
theorem C7_addRef_fresh (c : ChunkCache) (a : Dxyz)
    (h1 : lookupK (c.slices a.depth) a.pos = none) (h2 : a ∉ c.owned) :
    ∃ r, addRef c a = some r ∧
      lookupK (r.1.slices a.depth) a.pos =
        some { count := 1, chunk := some { key := a, np := c.hierarchy a } } ∧
      r.1.info.alive = c.info.alive + 1 ∧
      r.1.info.read = c.info.read + (if c.hierarchy a = 0 then 0 else 1) ∧
      r.1.owned = c.owned ∧
      (∀ d' k, d' ≠ a.depth ∨ k ≠ a.pos →
        lookupK (r.1.slices d') k = lookupK (c.slices d') k) ∧
      ∃ r2, addRef r.1 a = some r2 ∧
        lookupK (r2.1.slices a.depth) a.pos =
          some { count := 2, chunk := some { key := a, np := c.hierarchy a } } ∧
        r2.1.info.alive = r.1.info.alive := by
  have hother : ∀ (c0 : ChunkCache) (v : NewReffedChunk) (d' : Nat) (k : Xyz),
      d' ≠ a.depth ∨ k ≠ a.pos →
      lookupK ((setSlice c0 a.depth (setK (c0.slices a.depth) a.pos v)).slices d') k =
        lookupK (c0.slices d') k := by
    intro c0 v d' k hne
    rcases hne with hd | hk
    · rw [setSlice_slices_ne _ _ hd]
    · by_cases hd : d' = a.depth
      · subst hd
        rw [setSlice_slices_self, lookupK_setK_ne _ _ _ _ hk]
      · rw [setSlice_slices_ne _ _ hd]
  by_cases hnp : c.hierarchy a = 0
  · simp only [addRef, h1, hnp, if_pos]
    refine ⟨_, rfl, ?_, ?_, ?_, rfl, ?_, ?_⟩
    · rw [setSlice_slices_self, lookupK_setK_self]
    · rw [setSlice_info]
    · rw [setSlice_info]
      simp
    · intro d' k hne
      exact hother _ _ d' k hne
    · have hl2 : lookupK ((setSlice { c with info := { c.info with alive := c.info.alive + 1 } }
          a.depth (setK (c.slices a.depth) a.pos
            { count := 1, chunk := some { key := a, np := 0 } })).slices a.depth) a.pos =
          some { count := 1, chunk := some { key := a, np := 0 } } := by
        rw [setSlice_slices_self, lookupK_setK_self]
      have hm2 : a ∉ (setSlice { c with info := { c.info with alive := c.info.alive + 1 } }
          a.depth (setK (c.slices a.depth) a.pos
            { count := 1, chunk := some { key := a, np := 0 } })).owned := h2
      simp only [addRef, hl2, addRefPool, if_neg hm2]
      refine ⟨_, rfl, ?_, rfl⟩
      rw [setSlice_slices_self, lookupK_setK_self]
  · simp only [addRef, h1, if_neg hnp]
    refine ⟨_, rfl, ?_, ?_, ?_, rfl, ?_, ?_⟩
    · rw [show (bumpRead (setSlice
          { c with info := { c.info with alive := c.info.alive + 1 } } a.depth
          (setK (c.slices a.depth) a.pos
            { count := 1, chunk := some { key := a, np := c.hierarchy a } }))).slices =
          (setSlice { c with info := { c.info with alive := c.info.alive + 1 } } a.depth
            (setK (c.slices a.depth) a.pos
              { count := 1, chunk := some { key := a, np := c.hierarchy a } })).slices
        from rfl]
      rw [setSlice_slices_self, lookupK_setK_self]
    · rfl
    · simp only [bumpRead_read, setSlice_info]
    · intro d' k hne
      exact hother _ _ d' k hne
    · have hl2 : lookupK ((bumpRead (setSlice
          { c with info := { c.info with alive := c.info.alive + 1 } } a.depth
          (setK (c.slices a.depth) a.pos
            { count := 1, chunk := some { key := a, np := c.hierarchy a } }))).slices
            a.depth) a.pos =
          some { count := 1, chunk := some { key := a, np := c.hierarchy a } } := by
        show lookupK ((setSlice { c with info := { c.info with alive := c.info.alive + 1 } }
          a.depth (setK (c.slices a.depth) a.pos
            { count := 1, chunk := some { key := a, np := c.hierarchy a } })).slices
            a.depth) a.pos = _
        rw [setSlice_slices_self, lookupK_setK_self]
      have hm2 : a ∉ (bumpRead (setSlice
          { c with info := { c.info with alive := c.info.alive + 1 } } a.depth
          (setK (c.slices a.depth) a.pos
            { count := 1, chunk := some { key := a, np := c.hierarchy a } }))).owned := h2
      simp only [addRef, hl2, addRefPool, if_neg hm2]
      refine ⟨_, rfl, ?_, rfl⟩
      rw [setSlice_slices_self, lookupK_setK_self]

/-- Witness for C7_addRef_fresh at the empty cache and address a0. -/
theorem C7_addRef_fresh_witness :
    ∃ r, addRef init a0 = some r ∧
      lookupK (r.1.slices a0.depth) a0.pos =
        some { count := 1, chunk := some { key := a0, np := init.hierarchy a0 } } ∧
      r.1.info.alive = init.info.alive + 1 ∧
      r.1.info.read = init.info.read + (if init.hierarchy a0 = 0 then 0 else 1) ∧
      r.1.owned = init.owned ∧
      (∀ d' k, d' ≠ a0.depth ∨ k ≠ a0.pos →
        lookupK (r.1.slices d') k = lookupK (init.slices d') k) ∧
      ∃ r2, addRef r.1 a0 = some r2 ∧
        lookupK (r2.1.slices a0.depth) a0.pos =
          some { count := 2, chunk := some { key := a0, np := init.hierarchy a0 } } ∧
        r2.1.info.alive = r.1.info.alive :=
  C7_addRef_fresh init a0 rfl (by decide)

/-- Claim C8: when addRef finds an existing slot whose chunk content is
absent (the serialized-but-not-yet-erased state, reference count zero), the
count immediately after the increment is exactly 1, so the assertion
ref.count() == 1 passes and the caller is the sole owner; addRef then
assigns a fresh chunk from the nonzero point count the Hierarchy records,
increments the read statistic, and performs the load while holding only the
slot lock. -/
theorem C8_rematerialize (c : ChunkCache) (a : Dxyz) (s : NewReffedChunk)
    (h1 : lookupK (c.slices a.depth) a.pos = some s) (h2 : s.chunk = none)
    (h3 : s.count = 0) (h4 : c.hierarchy a ≠ 0) (h5 : a ∉ c.owned) :
    ∃ r, addRef c a = some r ∧
      lookupK (r.1.slices a.depth) a.pos =
        some { count := 1, chunk := some { key := a, np := c.hierarchy a } } ∧
      r.1.info.read = c.info.read + 1 ∧
      r.2 = [Ev.acq (Lk.slice a.depth), Ev.acq (Lk.slot a), Ev.rel (Lk.slice a.depth),
             Ev.load a, Ev.rel (Lk.slot a), Ev.acq Lk.pool, Ev.rel Lk.pool] ∧
      ioHeld [] r.2 = true := by
  have hc1 : s.count + 1 = 1 := by omega
  simp only [addRef, h1, h2, if_pos hc1, if_neg h4, addRefPool]
  have hm : a ∉ (bumpRead c).owned := h5
  simp only [if_neg hm]
  refine ⟨_, rfl, ?_, rfl, ?_, ?_⟩
  · rw [setSlice_slices_self, lookupK_setK_self, h3]
  · rfl
  · simp [ioHeld, removeL]

/-- A cache holding one serialized-but-not-erased slot at a0, with the
Hierarchy recording seven points for it. -/
def cRemat : ChunkCache :=
  { slices := fun d => if d = 0 then [(p0, { count := 0, chunk := none })] else [],
    owned := [], hierarchy := fun _ => 7, info := ⟨1, 0, 0⟩, saved := [], queue := [] }

/-- Witness for C8_rematerialize at the concrete state cRemat. -/
theorem C8_rematerialize_witness :
    ∃ r, addRef cRemat a0 = some r ∧
      lookupK (r.1.slices a0.depth) a0.pos =
        some { count := 1, chunk := some { key := a0, np := cRemat.hierarchy a0 } } ∧
      r.1.info.read = cRemat.info.read + 1 ∧
      r.2 = [Ev.acq (Lk.slice a0.depth), Ev.acq (Lk.slot a0), Ev.rel (Lk.slice a0.depth),
             Ev.load a0, Ev.rel (Lk.slot a0), Ev.acq Lk.pool, Ev.rel Lk.pool] ∧
      ioHeld [] r.2 = true :=
  C8_rematerialize cRemat a0 { count := 0, chunk := none } rfl rfl rfl
    (by decide) (by decide)

/-- The state-only view of maybeSerialize, used to compare repeated runs. -/
def serializeS (c : ChunkCache) (a : Dxyz) : Option ChunkCache :=
  (maybeSerialize c a).map Prod.fst

/-- Keys of a slice are pairwise distinct, as they are for a std::map. -/
def keysND (l : List (Xyz × NewReffedChunk)) : Prop := (l.map Prod.fst).Nodup

theorem maybeErase_erases (c : ChunkCache) (a : Dxyz) (ref : NewReffedChunk)
    (hcl : lookupK (c.slices a.depth) a.pos = some ref) (h0 : ref.count = 0)
    (hch : ref.chunk = none) :
    maybeErase c a =
      ({ setSlice c a.depth (eraseK (c.slices a.depth) a.pos) with
          info := { c.info with alive := c.info.alive - 1 } },
        [Ev.acq (Lk.slice a.depth), Ev.acq (Lk.slot a), Ev.rel (Lk.slice a.depth)]) := by
  have h0' : ¬ ref.count ≠ 0 := by omega
  simp only [maybeErase, hcl, if_neg h0', hch]
  rfl

theorem maybeSerialize_main (c : ChunkCache) (a : Dxyz) (ref : NewReffedChunk)
    (ch : NewChunk) (hcl : lookupK (c.slices a.depth) a.pos = some ref)
    (h0 : ref.count = 0) (hch : ref.chunk = some ch) (hnp : ch.np ≠ 0)
    (hnd : keysND (c.slices a.depth)) :
    ∃ cEnd, serializeS c a = some cEnd ∧
      lookupK (cEnd.slices a.depth) a.pos = none ∧
      (∀ d', d' ≠ a.depth → cEnd.slices d' = c.slices d') ∧
      (∀ k, k ≠ a.pos → lookupK (cEnd.slices a.depth) k = lookupK (c.slices a.depth) k) ∧
      cEnd.slices a.depth =
        eraseK (setK (c.slices a.depth) a.pos { ref with chunk := none }) a.pos ∧
      cEnd.saved = c.saved ++ [(ch.key, ch.np)] ∧
      cEnd.info.written = c.info.written + 1 ∧
      cEnd.info.alive = c.info.alive - 1 ∧
      cEnd.info.read = c.info.read ∧
      cEnd.hierarchy = (fun b => if b = ch.key then ch.np else c.hierarchy b) ∧
      cEnd.owned = c.owned ∧ cEnd.queue = c.queue := by
  have h0' : ¬ ref.count ≠ 0 := by omega
  set c2 : ChunkCache := setSlice
      { c with info := { c.info with written := c.info.written + 1 },
               saved := c.saved ++ [(ch.key, ch.np)],
               hierarchy := fun b => if b = ch.key then ch.np else c.hierarchy b }
      a.depth (setK (c.slices a.depth) a.pos { ref with chunk := none }) with hc2
  have hl2 : lookupK (c2.slices a.depth) a.pos = some { ref with chunk := none } := by
    rw [hc2, setSlice_slices_self, lookupK_setK_self]
  have hkeys2 : c2.slices a.depth = setK (c.slices a.depth) a.pos { ref with chunk := none } := by
    rw [hc2, setSlice_slices_self]
  have herase := maybeErase_erases c2 a { ref with chunk := none } hl2 h0 rfl
  have hser : serializeS c a = some (maybeErase c2 a).1 := by
    simp only [serializeS, maybeSerialize, hcl, if_neg h0', hch, if_neg hnp]
    rw [← hc2]
    rfl
  refine ⟨(maybeErase c2 a).1, hser, ?_, ?_, ?_, ?_, ?_, ?_, ?_, ?_, ?_, ?_, ?_⟩
  · rw [herase]
    show lookupK ((setSlice c2 a.depth (eraseK (c2.slices a.depth) a.pos)).slices
      a.depth) a.pos = none
    rw [setSlice_slices_self]
    apply lookupK_eraseK_self
    rw [hkeys2]
    have hkeys := keys_setK_of_lookup (c.slices a.depth) a.pos
      { ref with chunk := none } ref hcl
    rw [hkeys]
    exact hnd
  · intro d' hd
    rw [herase]
    show (setSlice c2 a.depth (eraseK (c2.slices a.depth) a.pos)).slices d' = c.slices d'
    rw [setSlice_slices_ne _ _ hd, hc2, setSlice_slices_ne _ _ hd]
  · intro k hk
    rw [herase]
    show lookupK ((setSlice c2 a.depth (eraseK (c2.slices a.depth) a.pos)).slices
      a.depth) k = lookupK (c.slices a.depth) k
    rw [setSlice_slices_self, lookupK_eraseK_ne _ _ _ hk, hkeys2,
      lookupK_setK_ne _ _ _ _ hk]
  · rw [herase]
    show (setSlice c2 a.depth (eraseK (c2.slices a.depth) a.pos)).slices a.depth =
      eraseK (setK (c.slices a.depth) a.pos { ref with chunk := none }) a.pos
    rw [setSlice_slices_self, hkeys2]
  · rw [herase]
    rfl
  · rw [herase]
    rfl
  · rw [herase]
    rfl
  · rw [herase]
    rfl
  · rw [herase]
    rfl
  · rw [herase]
    rfl
  · rw [herase]
    rfl

/-- Claim C4: maybeSerialize is idempotent for a given address.  When the
slot entry is missing, or its reference count is nonzero, or its chunk
content is already absent, the call is a no-op returning the state
unchanged (so nothing is saved, the Hierarchy is untouched and the written
counter does not move); when it does serialize, it appends exactly one save
of the chunk, bumps written by one and records the point count in the
Hierarchy; and running maybeSerialize twice in a row equals running it
once. -/
theorem C4_serialize_idempotent (c : ChunkCache) (a : Dxyz)
    (hnd : keysND (c.slices a.depth)) :
    (lookupK (c.slices a.depth) a.pos = none → serializeS c a = some c) ∧
    (∀ s, lookupK (c.slices a.depth) a.pos = some s → s.count ≠ 0 →
      serializeS c a = some c) ∧
    (∀ s, lookupK (c.slices a.depth) a.pos = some s → s.chunk = none →
      serializeS c a = some c) ∧
    (∀ s ch, lookupK (c.slices a.depth) a.pos = some s → s.count = 0 →
      s.chunk = some ch → ch.np ≠ 0 →
      ∃ c1, serializeS c a = some c1 ∧ c1.saved = c.saved ++ [(ch.key, ch.np)] ∧
        c1.info.written = c.info.written + 1 ∧ c1.hierarchy ch.key = ch.np) ∧
    (serializeS c a).bind (fun c1 => serializeS c1 a) = serializeS c a := by
  rcases hcl : lookupK (c.slices a.depth) a.pos with _ | ref
  · have hser : serializeS c a = some c := by
      simp [serializeS, maybeSerialize, hcl]
    refine ⟨fun _ => hser, ?_, ?_, ?_, ?_⟩
    · intro s hs _
      exact Option.noConfusion hs
    · intro s hs _
      exact Option.noConfusion hs
    · intro s ch hs _ _ _
      exact Option.noConfusion hs
    · rw [hser]
      show serializeS c a = some c
      exact hser
  · by_cases h0 : ref.count ≠ 0
    · have hser : serializeS c a = some c := by
        simp [serializeS, maybeSerialize, hcl, if_pos h0]
      refine ⟨?_, fun _ _ _ => hser, fun _ _ _ => hser, ?_, ?_⟩
      · intro hn
        exact Option.noConfusion hn
      · intro s ch hs h0' _ _
        cases hs
        exact absurd h0' h0
      · rw [hser]
        show serializeS c a = some c
        exact hser
    · rcases hch : ref.chunk with _ | ch
      · have hser : serializeS c a = some c := by
          simp [serializeS, maybeSerialize, hcl, if_neg h0, hch]
        refine ⟨?_, fun _ _ _ => hser, fun _ _ _ => hser, ?_, ?_⟩
        · intro hn
          exact Option.noConfusion hn
        · intro s ch' hs _ hch' _
          cases hs
          rw [hch] at hch'
          exact Option.noConfusion hch'
        · rw [hser]
          show serializeS c a = some c
          exact hser
      · by_cases hnp : ch.np = 0
        · have hser : serializeS c a = none := by
            simp [serializeS, maybeSerialize, hcl, if_neg h0, hch, if_pos hnp]
          refine ⟨?_, ?_, ?_, ?_, ?_⟩
          · intro hn
            exact Option.noConfusion hn
          · intro s hs h0'
            cases hs
            exact absurd h0' h0
          · intro s hs hch'
            cases hs
            rw [hch] at hch'
            exact Option.noConfusion hch'
          · intro s ch' hs _ hch' hnp'
            cases hs
            rw [hch] at hch'
            cases hch'
            exact absurd hnp hnp'
          · rw [hser]
            rfl
        · have h00 : ref.count = 0 := by
            by_contra hcon
            exact h0 hcon
          obtain ⟨cEnd, hser, hnone, _, _, _, hsaved, hwrit, _, _, hhierf, _, _⟩ :=
            maybeSerialize_main c a ref ch hcl h00 hch hnp hnd
          have hhier : cEnd.hierarchy ch.key = ch.np := by
            rw [hhierf]
            simp
          have hser2 : serializeS cEnd a = some cEnd := by
            simp [serializeS, maybeSerialize, hnone]
          refine ⟨?_, ?_, ?_, ?_, ?_⟩
          · intro hn
            exact Option.noConfusion hn
          · intro s hs h0'
            cases hs
            exact absurd h0' h0
          · intro s hs hch'
            cases hs
            rw [hch] at hch'
            exact Option.noConfusion hch'
          · intro s ch' hs _ hch' _
            cases hs
            rw [hch] at hch'
            cases hch'
            exact ⟨cEnd, hser, hsaved, hwrit, hhier⟩
          · rw [hser]
            show serializeS cEnd a = some cEnd
            exact hser2

/-- A cache holding one unreferenced, still-resident chunk at a0, ready to
serialize. -/
def cSer : ChunkCache :=
  { slices := fun d => if d = 0 then [(p0, { count := 0, chunk := some { key := a0, np := 3 } })] else [],
    owned := [], hierarchy := fun _ => 0, info := ⟨1, 0, 0⟩, saved := [], queue := [] }

/-- Witness for C4_serialize_idempotent at the concrete state cSer. -/
theorem C4_serialize_idempotent_witness :
    (lookupK (cSer.slices a0.depth) a0.pos = none → serializeS cSer a0 = some cSer) ∧
    (∀ s, lookupK (cSer.slices a0.depth) a0.pos = some s → s.count ≠ 0 →
      serializeS cSer a0 = some cSer) ∧
    (∀ s, lookupK (cSer.slices a0.depth) a0.pos = some s → s.chunk = none →
      serializeS cSer a0 = some cSer) ∧
    (∀ s ch, lookupK (cSer.slices a0.depth) a0.pos = some s → s.count = 0 →
      s.chunk = some ch → ch.np ≠ 0 →
      ∃ c1, serializeS cSer a0 = some c1 ∧ c1.saved = cSer.saved ++ [(ch.key, ch.np)] ∧
        c1.info.written = cSer.info.written + 1 ∧ c1.hierarchy ch.key = ch.np) ∧
    (serializeS cSer a0).bind (fun c1 => serializeS c1 a0) = serializeS cSer a0 :=
  C4_serialize_idempotent cSer a0
    (by show (List.map Prod.fst (cSer.slices a0.depth)).Nodup; decide)

theorem dxyz_eq_of (a b : Dxyz) (hd : b.depth = a.depth) (hp : b.pos = a.pos) : b = a := by
  cases a
  cases b
  simp_all

theorem lookup_setSlice_setK_ne (c : ChunkCache) (a : Dxyz) (v : NewReffedChunk)
    (b : Dxyz) (hne : b ≠ a) :
    lookupK ((setSlice c a.depth (setK (c.slices a.depth) a.pos v)).slices b.depth) b.pos =
      lookupK (c.slices b.depth) b.pos := by
  by_cases hd : b.depth = a.depth
  · rw [hd, setSlice_slices_self]
    rw [lookupK_setK_ne _ _ _ _ (fun hp => hne (dxyz_eq_of a b hd hp))]
  · rw [setSlice_slices_ne _ _ hd]

theorem lookup_setSlice_eraseK_ne (c : ChunkCache) (a : Dxyz) (b : Dxyz) (hne : b ≠ a) :
    lookupK ((setSlice c a.depth (eraseK (c.slices a.depth) a.pos)).slices b.depth) b.pos =
      lookupK (c.slices b.depth) b.pos := by
  by_cases hd : b.depth = a.depth
  · rw [hd, setSlice_slices_self]
    rw [lookupK_eraseK_ne _ _ _ (fun hp => hne (dxyz_eq_of a b hd hp))]
  · rw [setSlice_slices_ne _ _ hd]

/-- The pool invariant: pooled addresses are pairwise distinct and every
pooled address has a present slot whose reference count is exactly 1, the
single reference the pool owns. -/
def Inv (c : ChunkCache) : Prop :=
  c.owned.Nodup ∧
  ∀ a ∈ c.owned, ∃ s, lookupK (c.slices a.depth) a.pos = some s ∧ s.count = 1

theorem addRefPool_inv (c1 : ChunkCache) (ck : Dxyz) (ref2 : NewReffedChunk)
    (tr1 : List Ev) (r : ChunkCache × List Ev) (h : addRefPool c1 ck ref2 tr1 = some r)
    (hInv : Inv c1) : Inv r.1 := by
  obtain ⟨hnd, hmemInv⟩ := hInv
  by_cases hmem : ck ∈ c1.owned
  · by_cases h2 : ref2.count ≤ 1
    · simp only [addRefPool, if_pos hmem, if_pos h2] at h
      exact Option.noConfusion h
    · simp only [addRefPool, if_pos hmem, if_neg h2] at h
      cases h
      constructor
      · exact nodup_removeD hnd
      · intro b hb
        have hb' : b ∈ c1.owned := mem_of_mem_removeD hb
        have hbne : b ≠ ck := by
          intro he
          subst he
          exact (not_mem_removeD_self hnd) hb
        obtain ⟨s, hs, hsc⟩ := hmemInv b hb'
        refine ⟨s, ?_, hsc⟩
        show lookupK ((setSlice c1 ck.depth (setK (c1.slices ck.depth) ck.pos
          { ref2 with count := ref2.count - 1 })).slices b.depth) b.pos = some s
        rw [lookup_setSlice_setK_ne _ _ _ _ hbne]
        exact hs
  · simp only [addRefPool, if_neg hmem] at h
    cases h
    refine ⟨hnd, ?_⟩
    intro b hb
    have hbne : b ≠ ck := fun he => hmem (he ▸ hb)
    obtain ⟨s, hs, hsc⟩ := hmemInv b hb
    refine ⟨s, ?_, hsc⟩
    show lookupK ((setSlice c1 ck.depth (setK (c1.slices ck.depth) ck.pos
      ref2)).slices b.depth) b.pos = some s
    rw [lookup_setSlice_setK_ne _ _ _ _ hbne]
    exact hs

theorem addRef_inv (c : ChunkCache) (ck : Dxyz) (r : ChunkCache × List Ev)
    (h : addRef c ck = some r) (hInv : Inv c) : Inv r.1 := by
  rcases hcl : lookupK (c.slices ck.depth) ck.pos with _ | ref0
  · have hco : ck ∉ c.owned := by
      intro hmem
      obtain ⟨s, hs, _⟩ := hInv.2 ck hmem
      rw [hcl] at hs
      exact Option.noConfusion hs
    have hrest : ∀ (cc : ChunkCache) (v : NewReffedChunk),
        cc.owned = c.owned → cc.slices = c.slices →
        Inv (setSlice cc ck.depth (setK (cc.slices ck.depth) ck.pos v)) := by
      intro cc v ho hsl
      refine ⟨by rw [setSlice_owned, ho]; exact hInv.1, ?_⟩
      intro b hb
      rw [setSlice_owned, ho] at hb
      have hbne : b ≠ ck := fun he => hco (he ▸ hb)
      obtain ⟨s, hs, hsc⟩ := hInv.2 b hb
      refine ⟨s, ?_, hsc⟩
      rw [lookup_setSlice_setK_ne _ _ _ _ hbne, hsl]
      exact hs
    by_cases hnp : c.hierarchy ck = 0
    · simp only [addRef, hcl, hnp, if_pos] at h
      cases h
      exact hrest _ _ rfl rfl
    · simp only [addRef, hcl, if_neg hnp] at h
      cases h
      exact hrest _ _ rfl rfl
  · rcases hch : ref0.chunk with _ | ch
    · by_cases h1 : ref0.count + 1 = 1
      · by_cases hnp : c.hierarchy ck = 0
        · simp only [addRef, hcl, hch, if_pos h1, hnp, if_pos] at h
          exact Option.noConfusion h
        · simp only [addRef, hcl, hch, if_pos h1, if_neg hnp] at h
          exact addRefPool_inv _ _ _ _ _ h hInv
      · simp only [addRef, hcl, hch, if_neg h1] at h
        exact Option.noConfusion h
    · simp only [addRef, hcl, hch] at h
      exact addRefPool_inv _ _ _ _ _ h hInv

theorem pruneLoop_inv (d : Nat) :
    ∀ (stale : List Xyz) (c : ChunkCache) (r : ChunkCache × List Ev),
      pruneLoop c d stale = some r → Inv c → Inv r.1 := by
  intro stale
  induction stale with
  | nil =>
    intro c r h hInv
    simp only [pruneLoop] at h
    cases h
    exact hInv
  | cons k0 rest ih =>
    intro c r h hInv
    rcases hcl : lookupK (c.slices d) k0 with _ | ref
    · simp only [pruneLoop, hcl] at h
      exact Option.noConfusion h
    · by_cases h0 : ref.count = 0
      · simp only [pruneLoop, hcl, if_pos h0] at h
        exact Option.noConfusion h
      · by_cases h1 : ref.count = 1
        · by_cases hmem : (⟨d, k0⟩ : Dxyz) ∈
              (setSlice c d (setK (c.slices d) k0 { ref with count := 1 })).owned
          · simp only [pruneLoop, hcl, if_neg h0, if_pos h1, if_pos hmem] at h
            exact Option.noConfusion h
          · simp only [pruneLoop, hcl, if_neg h0, if_pos h1, if_neg hmem] at h
            rcases hrec : pruneLoop
                { setSlice c d (setK (c.slices d) k0 { ref with count := 1 }) with
                  owned := (⟨d, k0⟩ : Dxyz) ::
                    (setSlice c d (setK (c.slices d) k0 { ref with count := 1 })).owned }
                d rest with _ | r1
            · rw [hrec] at h
              exact Option.noConfusion h
            · rw [hrec] at h
              obtain ⟨c3, tr3⟩ := r1
              cases h
              refine ih _ (c3, tr3) hrec ?_
              have hmem' : (⟨d, k0⟩ : Dxyz) ∉ c.owned := hmem
              constructor
              · exact List.nodup_cons.mpr ⟨hmem', hInv.1⟩
              · intro b hb
                rcases List.mem_cons.mp hb with rfl | hb'
                · refine ⟨{ ref with count := 1 }, ?_, rfl⟩
                  show lookupK ((setSlice c d (setK (c.slices d) k0
                    { ref with count := 1 })).slices d) k0 = _
                  rw [setSlice_slices_self, lookupK_setK_self]
                · have hbne : b ≠ (⟨d, k0⟩ : Dxyz) := fun he => hmem' (he ▸ hb')
                  obtain ⟨s, hs, hsc⟩ := hInv.2 b hb'
                  refine ⟨s, ?_, hsc⟩
                  show lookupK ((setSlice c d (setK (c.slices d) k0
                    { ref with count := 1 })).slices b.depth) b.pos = some s
                  have : lookupK ((setSlice c (⟨d, k0⟩ : Dxyz).depth
                      (setK (c.slices (⟨d, k0⟩ : Dxyz).depth) (⟨d, k0⟩ : Dxyz).pos
                        { ref with count := 1 })).slices b.depth) b.pos =
                      lookupK (c.slices b.depth) b.pos :=
                    lookup_setSlice_setK_ne c ⟨d, k0⟩ _ b hbne
                  rw [this]
                  exact hs
        · simp only [pruneLoop, hcl, if_neg h0, if_neg h1] at h
          rcases hrec : pruneLoop
              (setSlice c d (setK (c.slices d) k0 { ref with count := ref.count - 1 }))
              d rest with _ | r1
          · rw [hrec] at h
            exact Option.noConfusion h
          · rw [hrec] at h
            obtain ⟨c2, tr2⟩ := r1
            cases h
            refine ih _ (c2, tr2) hrec ?_
            have hmem' : (⟨d, k0⟩ : Dxyz) ∉ c.owned := by
              intro hmem
              obtain ⟨s, hs, hsc⟩ := hInv.2 _ hmem
              have hs' : lookupK (c.slices d) k0 = some s := hs
              rw [hcl] at hs'
              cases hs'
              exact h1 hsc
            refine ⟨by rw [setSlice_owned]; exact hInv.1, ?_⟩
            intro b hb
            rw [setSlice_owned] at hb
            have hbne : b ≠ (⟨d, k0⟩ : Dxyz) := fun he => hmem' (he ▸ hb)
            obtain ⟨s, hs, hsc⟩ := hInv.2 b hb
            refine ⟨s, ?_, hsc⟩
            have : lookupK ((setSlice c (⟨d, k0⟩ : Dxyz).depth
                (setK (c.slices (⟨d, k0⟩ : Dxyz).depth) (⟨d, k0⟩ : Dxyz).pos
                  { ref with count := ref.count - 1 })).slices b.depth) b.pos =
                lookupK (c.slices b.depth) b.pos :=
              lookup_setSlice_setK_ne c ⟨d, k0⟩ _ b hbne
            rw [this]
            exact hs

theorem prune_inv (c : ChunkCache) (d : Nat) (stale : List Xyz)
    (r : ChunkCache × List Ev) (h : prune c d stale = some r) (hInv : Inv c) :
    Inv r.1 := by
  by_cases hs : stale = []
  · simp only [prune, if_pos hs] at h
    cases h
    exact hInv
  · simp only [prune, if_neg hs] at h
    rcases hrec : pruneLoop c d stale with _ | r1
    · rw [hrec] at h
      exact Option.noConfusion h
    · rw [hrec] at h
      obtain ⟨c1, tr⟩ := r1
      cases h
      exact pruneLoop_inv d stale c (c1, tr) hrec hInv

theorem purgeBody_inv (c : ChunkCache) (n : Nat) (r : ChunkCache × List Ev)
    (h : purgeBody c n = some r) (hInv : Inv c) : Inv r.1 := by
  rcases hmx : maxD c.owned with _ | dxyz
  · simp only [purgeBody, hmx] at h
    exact Option.noConfusion h
  · rcases hcl : lookupK (c.slices dxyz.depth) dxyz.pos with _ | ref
    · simp only [purgeBody, hmx, hcl] at h
      exact Option.noConfusion h
    · have hrest : ∀ v : NewReffedChunk,
          Inv (setSlice { c with owned := removeD c.owned dxyz } dxyz.depth
            (setK (({ c with owned := removeD c.owned dxyz } : ChunkCache).slices
              dxyz.depth) dxyz.pos v)) := by
        intro v
        refine ⟨by rw [setSlice_owned]; exact nodup_removeD hInv.1, ?_⟩
        intro b hb
        rw [setSlice_owned] at hb
        have hb' : b ∈ c.owned := mem_of_mem_removeD hb
        have hbne : b ≠ dxyz := by
          intro he
          subst he
          exact (not_mem_removeD_self hInv.1) hb
        obtain ⟨s, hs, hsc⟩ := hInv.2 b hb'
        refine ⟨s, ?_, hsc⟩
        have := lookup_setSlice_setK_ne { c with owned := removeD c.owned dxyz }
          dxyz v b hbne
        rw [this]
        exact hs
      by_cases ha : n = 0 ∧ ref.count ≠ 1
      · simp only [purgeBody, hmx, hcl, if_pos ha] at h
        exact Option.noConfusion h
      · by_cases h1 : ref.count = 1
        · simp only [purgeBody, hmx, hcl, if_neg ha, if_pos h1] at h
          cases h
          have := hrest { ref with count := 0 }
          exact this
        · simp only [purgeBody, hmx, hcl, if_neg ha, if_neg h1] at h
          cases h
          exact hrest { ref with count := ref.count - 1 }

theorem purgeLoop_inv :
    ∀ (fuel : Nat) (c : ChunkCache) (n : Nat) (r : ChunkCache × List Ev),
      purgeLoop fuel c n = some r → Inv c → Inv r.1 := by
  intro fuel
  induction fuel with
  | zero =>
    intro c n r h hInv
    simp only [purgeLoop] at h
    cases h
    exact hInv
  | succ fuel ih =>
    intro c n r h hInv
    by_cases hgt : c.owned.length > n
    · rcases hb : purgeBody c n with _ | r1
      · simp only [purgeLoop, if_pos hgt, hb] at h
        exact Option.noConfusion h
      · obtain ⟨c1, tr1⟩ := r1
        rcases hrec : purgeLoop fuel c1 n with _ | r2
        · simp only [purgeLoop, if_pos hgt, hb, hrec] at h
          exact Option.noConfusion h
        · obtain ⟨c2, tr2⟩ := r2
          simp only [purgeLoop, if_pos hgt, hb, hrec] at h
          cases h
          exact ih c1 n (c2, tr2) hrec (purgeBody_inv c n (c1, tr1) hb hInv)
    · simp only [purgeLoop, if_neg hgt] at h
      cases h
      exact hInv

theorem maybePurge_inv (c : ChunkCache) (n : Nat) (r : ChunkCache × List Ev)
    (h : maybePurge c n = some r) (hInv : Inv c) : Inv r.1 := by
  rcases hl : purgeLoop c.owned.length c n with _ | r1
  · simp only [maybePurge, hl] at h
    exact Option.noConfusion h
  · simp only [maybePurge, hl] at h
    obtain ⟨c1, tr⟩ := r1
    cases h
    exact purgeLoop_inv c.owned.length c n (c1, tr) hl hInv

theorem maybeErase_inv (c : ChunkCache) (a : Dxyz) (hInv : Inv c) :
    Inv (maybeErase c a).1 := by
  rcases hcl : lookupK (c.slices a.depth) a.pos with _ | ref
  · simp only [maybeErase, hcl]
    exact hInv
  · by_cases h0 : ref.count ≠ 0
    · simp only [maybeErase, hcl, if_pos h0]
      exact hInv
    · rcases hch : ref.chunk with _ | ch
      · simp only [maybeErase, hcl, if_neg h0, hch]
        have hano : a ∉ c.owned := by
          intro hmem
          obtain ⟨s, hs, hsc⟩ := hInv.2 a hmem
          rw [hcl] at hs
          cases hs
          exact h0 (by rw [hsc]; omega)
        refine ⟨hInv.1, ?_⟩
        intro b hb
        have hbne : b ≠ a := fun he => hano (he ▸ hb)
        obtain ⟨s, hs, hsc⟩ := hInv.2 b hb
        refine ⟨s, ?_, hsc⟩
        show lookupK ((setSlice c a.depth (eraseK (c.slices a.depth) a.pos)).slices
          b.depth) b.pos = some s
        rw [lookup_setSlice_eraseK_ne _ _ _ hbne]
        exact hs
      · simp only [maybeErase, hcl, if_neg h0, hch]
        exact hInv

theorem maybeSerialize_inv (c : ChunkCache) (a : Dxyz) (r : ChunkCache × List Ev)
    (h : maybeSerialize c a = some r) (hInv : Inv c) : Inv r.1 := by
  rcases hcl : lookupK (c.slices a.depth) a.pos with _ | ref
  · simp only [maybeSerialize, hcl] at h
    cases h
    exact hInv
  · by_cases h0 : ref.count ≠ 0
    · simp only [maybeSerialize, hcl, if_pos h0] at h
      cases h
      exact hInv
    · rcases hch : ref.chunk with _ | ch
      · simp only [maybeSerialize, hcl, if_neg h0, hch] at h
        cases h
        exact hInv
      · by_cases hnp : ch.np = 0
        · simp only [maybeSerialize, hcl, if_neg h0, hch, if_pos hnp] at h
          exact Option.noConfusion h
        · simp only [maybeSerialize, hcl, if_neg h0, hch, if_neg hnp] at h
          cases h
          apply maybeErase_inv
          have hano : a ∉ c.owned := by
            intro hmem
            obtain ⟨s, hs, hsc⟩ := hInv.2 a hmem
            rw [hcl] at hs
            cases hs
            exact h0 (by rw [hsc]; omega)
          refine ⟨hInv.1, ?_⟩
          intro b hb
          have hbne : b ≠ a := fun he => hano (he ▸ hb)
          obtain ⟨s, hs, hsc⟩ := hInv.2 b hb
          refine ⟨s, ?_, hsc⟩
          have := lookup_setSlice_setK_ne
            { c with info := { c.info with written := c.info.written + 1 },
                     saved := c.saved ++ [(ch.key, ch.np)],
                     hierarchy := fun b => if b = ch.key then ch.np else c.hierarchy b }
            a { ref with chunk := none } b hbne
          rw [this]
          exact hs

theorem applyOp_inv (c : ChunkCache) (op : Op) (r : ChunkCache × List Ev)
    (h : applyOp c op = some r) (hInv : Inv c) : Inv r.1 := by
  cases op with
  | addRef a => exact addRef_inv c a r h hInv
  | prune d stale => exact prune_inv c d stale r h hInv
  | maybePurge n => exact maybePurge_inv c n r h hInv
  | maybeSerialize a => exact maybeSerialize_inv c a r h hInv
  | maybeErase a =>
    simp only [applyOp] at h
    cases h
    exact maybeErase_inv c a hInv
  | latchInfo =>
    simp only [applyOp] at h
    cases h
    exact hInv

theorem runFrom_inv :
    ∀ (ops : List Op) (c c' : ChunkCache), Inv c → runFrom c ops = some c' → Inv c' := by
  intro ops
  induction ops with
  | nil =>
    intro c c' hInv h
    simp only [runFrom] at h
    cases h
    exact hInv
  | cons op t ih =>
    intro c c' hInv h
    rcases hap : applyOp c op with _ | r
    · simp only [runFrom, hap] at h
      exact Option.noConfusion h
    · simp only [runFrom, hap] at h
      exact ih r.1 c' (applyOp_inv c op r hap hInv) h

theorem run_inv (ops : List Op) (c' : ChunkCache) (h : run ops = some c') : Inv c' :=
  runFrom_inv ops init c' ⟨List.nodup_nil, fun a ha => by simp [init] at ha⟩ h

/-- Claim C2, counterexample: the claim says an address is never present in
the Eviction Pool while its reference count is nonzero, but prune puts the
count back to exactly 1 before pooling, so every pooled address has a
nonzero count; the state reached from the fresh cache by one addRef and one
prune exhibits it. -/
theorem C2_counterexample :
    Option.map (fun c => decide (a0 ∈ c.owned) && decide (countAt c a0 ≠ 0))
      (run [Op.addRef a0, Op.prune 0 [p0]]) = some true := by
  decide

/-- Claim C2 (amended): at every reachable state, no chunk address is
simultaneously present in two depth slices, and every address present in
the Eviction Pool has a present slot whose reference count is exactly 1,
the single reference owned by the pool. -/
theorem C2_invariant (ops : List Op) (c : ChunkCache) (h : run ops = some c) :
    (∀ a d1 d2, inSlice c d1 a → inSlice c d2 a → d1 = d2) ∧
    ∀ a ∈ c.owned, ∃ s, lookupK (c.slices a.depth) a.pos = some s ∧ s.count = 1 :=
  ⟨fun a d1 d2 h1 h2 => by rw [← h1.1, ← h2.1], (run_inv ops c h).2⟩

/-- Witness for C2_invariant at a concrete reachable state. -/
theorem C2_invariant_witness :
    (∀ a d1 d2, inSlice init d1 a → inSlice init d2 a → d1 = d2) ∧
    ∀ a ∈ init.owned, ∃ s, lookupK (init.slices a.depth) a.pos = some s ∧ s.count = 1 :=
  C2_invariant [] init rfl

theorem purgeBody_step (c : ChunkCache) (m : Dxyz) (s : NewReffedChunk)
    (hm : maxD c.owned = some m) (hs : lookupK (c.slices m.depth) m.pos = some s)
    (hs1 : s.count = 1) :
    ∃ c1 tr, purgeBody c 0 = some (c1, tr) ∧
      c1.owned = removeD c.owned m ∧
      c1.queue = c.queue ++ [m] ∧
      (∀ d k, lookupK (c1.slices d) k =
        (if (⟨d, k⟩ : Dxyz) = m then some { s with count := 0 }
         else lookupK (c.slices d) k)) ∧
      (∀ d, (c1.slices d).map Prod.fst = (c.slices d).map Prod.fst) ∧
      c1.hierarchy = c.hierarchy ∧ c1.info = c.info ∧ c1.saved = c.saved := by
  simp only [purgeBody, hm, hs, if_pos hs1]
  rw [if_neg (show ¬ (True ∧ s.count ≠ 1) by simp [hs1])]
  refine ⟨_, _, rfl, rfl, rfl, ?_, ?_, rfl, rfl, rfl⟩
  · intro d k
    by_cases he : (⟨d, k⟩ : Dxyz) = m
    · have hd : d = m.depth := by rw [← he]
      have hk : k = m.pos := by rw [← he]
      subst hd
      subst hk
      rw [if_pos he]
      show lookupK ((setSlice { c with owned := removeD c.owned m } m.depth
        (setK (({ c with owned := removeD c.owned m } : ChunkCache).slices m.depth)
          m.pos { s with count := 0 })).slices m.depth) m.pos = _
      rw [setSlice_slices_self, lookupK_setK_self]
    · rw [if_neg he]
      exact lookup_setSlice_setK_ne { c with owned := removeD c.owned m } m
        { s with count := 0 } ⟨d, k⟩ he
  · intro d
    by_cases hd : d = m.depth
    · subst hd
      show List.map Prod.fst ((setSlice { c with owned := removeD c.owned m } m.depth
        (setK (({ c with owned := removeD c.owned m } : ChunkCache).slices m.depth)
          m.pos { s with count := 0 })).slices m.depth) = List.map Prod.fst (c.slices m.depth)
      rw [setSlice_slices_self]
      exact keys_setK_of_lookup _ _ _ s hs
    · show List.map Prod.fst ((setSlice { c with owned := removeD c.owned m } m.depth
        (setK (({ c with owned := removeD c.owned m } : ChunkCache).slices m.depth)
          m.pos { s with count := 0 })).slices d) = List.map Prod.fst (c.slices d)
      rw [setSlice_slices_ne _ _ hd]

theorem purgeLoop_drain :
    ∀ (fuel : Nat) (c : ChunkCache), fuel = c.owned.length → c.owned.Nodup →
      (∀ a ∈ c.owned, ∃ s, lookupK (c.slices a.depth) a.pos = some s ∧ s.count = 1) →
      ∃ c' tr, purgeLoop fuel c 0 = some (c', tr) ∧
        c'.owned = [] ∧
        (∃ l, c'.queue = c.queue ++ l ∧ l.Perm c.owned) ∧
        (∀ d k, lookupK (c'.slices d) k =
          Option.map (fun s => if (⟨d, k⟩ : Dxyz) ∈ c.owned then { s with count := 0 } else s)
            (lookupK (c.slices d) k)) ∧
        (∀ d, (c'.slices d).map Prod.fst = (c.slices d).map Prod.fst) ∧
        c'.hierarchy = c.hierarchy ∧ c'.info = c.info ∧ c'.saved = c.saved := by
  intro fuel
  induction fuel with
  | zero =>
    intro c hfuel hnd hcnt
    have hempty : c.owned = [] := List.length_eq_zero.mp hfuel.symm
    refine ⟨c, [], by simp [purgeLoop], hempty, ⟨[], by simp, by rw [hempty]⟩, ?_,
      fun d => rfl, rfl, rfl, rfl⟩
    intro d k
    rw [hempty]
    cases lookupK (c.slices d) k <;> simp
  | succ fuel ih =>
    intro c hfuel hnd hcnt
    have hne : c.owned ≠ [] := by
      intro he
      rw [he] at hfuel
      simp at hfuel
    obtain ⟨m, hm⟩ := maxD_eq_some hne
    have hmem : m ∈ c.owned := maxD_mem hm
    obtain ⟨s, hs, hs1⟩ := hcnt m hmem
    have hgt : c.owned.length > 0 := by
      rw [← hfuel]
      omega
    obtain ⟨c1, trb, hbody, ho1, hq1, hchar1, hkeys1, hh1, hi1, hsv1⟩ :=
      purgeBody_step c m s hm hs hs1
    have hfuel1 : fuel = c1.owned.length := by
      rw [ho1]
      have hlen := length_removeD hmem
      omega
    have hnd1 : c1.owned.Nodup := by
      rw [ho1]
      exact nodup_removeD hnd
    have hcnt1 : ∀ a ∈ c1.owned, ∃ t, lookupK (c1.slices a.depth) a.pos = some t ∧
        t.count = 1 := by
      intro a ha
      rw [ho1] at ha
      have ha' : a ∈ c.owned := mem_of_mem_removeD ha
      have hane : a ≠ m := by
        intro he
        subst he
        exact (not_mem_removeD_self hnd) ha
      obtain ⟨t, ht, ht1⟩ := hcnt a ha'
      refine ⟨t, ?_, ht1⟩
      rw [hchar1 a.depth a.pos, if_neg (by exact hane)]
      exact ht
    obtain ⟨c', tr', hloop, ho', ⟨l', hql', hperm'⟩, hchar', hkeys', hh', hi', hsv'⟩ :=
      ih c1 hfuel1 hnd1 hcnt1
    refine ⟨c', trb ++ tr', ?_, ho', ⟨m :: l', ?_, ?_⟩, ?_, ?_, ?_, ?_, ?_⟩
    · simp only [purgeLoop, if_pos hgt, hbody, hloop]
    · rw [hql', hq1]
      simp
    · have h1 : (m :: l').Perm (m :: removeD c.owned m) :=
        List.Perm.cons m (by rw [← ho1]; exact hperm')
      exact h1.trans (perm_cons_removeD hmem).symm
    · intro d k
      rw [hchar' d k, hchar1 d k]
      by_cases he : (⟨d, k⟩ : Dxyz) = m
      · rw [if_pos he]
        have hd : d = m.depth := by rw [← he]
        have hk : k = m.pos := by rw [← he]
        subst hd
        subst hk
        rw [hs]
        have hsimp : ({ ({ s with count := 0 } : NewReffedChunk) with count := 0 } :
            NewReffedChunk) = { s with count := 0 } := rfl
        simp only [Option.map_some']
        rw [if_pos hmem]
        by_cases hmm : (⟨m.depth, m.pos⟩ : Dxyz) ∈ c1.owned
        · rw [if_pos hmm]
        · rw [if_neg hmm]
      · rw [if_neg he]
        rw [ho1]
        cases hlk : lookupK (c.slices d) k with
        | none => rfl
        | some t =>
          simp only [Option.map_some']
          rw [if_congr (mem_removeD_of_ne he) rfl rfl]
    · intro d
      rw [hkeys' d, hkeys1 d]
    · rw [hh', hh1]
    · rw [hi', hi1]
    · rw [hsv', hsv1]

theorem maybePurge_drain (c : ChunkCache) (hnd : c.owned.Nodup)
    (hcnt : ∀ a ∈ c.owned, ∃ s, lookupK (c.slices a.depth) a.pos = some s ∧ s.count = 1) :
    ∃ c' tr, maybePurge c 0 = some (c', tr) ∧
      c'.owned = [] ∧
      (∃ l, c'.queue = c.queue ++ l ∧ l.Perm c.owned) ∧
      (∀ d k, lookupK (c'.slices d) k =
        Option.map (fun s => if (⟨d, k⟩ : Dxyz) ∈ c.owned then { s with count := 0 } else s)
          (lookupK (c.slices d) k)) ∧
      (∀ d, (c'.slices d).map Prod.fst = (c.slices d).map Prod.fst) ∧
      c'.hierarchy = c.hierarchy ∧ c'.info = c.info ∧ c'.saved = c.saved := by
  obtain ⟨c', tr, hloop, rest⟩ := purgeLoop_drain c.owned.length c rfl hnd hcnt
  exact ⟨c', Ev.acq Lk.pool :: tr ++ [Ev.rel Lk.pool], by simp only [maybePurge, hloop], rest⟩

theorem joinAll_erases :
    ∀ (l : List Dxyz) (c : ChunkCache), l.Nodup →
      (∀ d, ((c.slices d).map Prod.fst).Nodup) →
      (∀ a ∈ l, ∃ s ch, lookupK (c.slices a.depth) a.pos = some s ∧ s.count = 0 ∧
        s.chunk = some ch ∧ ch.np ≠ 0) →
      ∃ c' tr, joinAll c l = some (c', tr) ∧
        ∀ d k, lookupK (c'.slices d) k =
          (if (⟨d, k⟩ : Dxyz) ∈ l then none else lookupK (c.slices d) k) := by
  intro l
  induction l with
  | nil =>
    intro c _ _ _
    exact ⟨c, [], rfl, fun d k => by simp⟩
  | cons a rest ih =>
    intro c hnd hknd hent
    obtain ⟨s, ch, hs, h0, hch, hnp⟩ := hent a (List.mem_cons_self a rest)
    obtain ⟨cEnd, hser, hnone, hdne, hkne, hsl, _, _, _, _, _, _, _⟩ :=
      maybeSerialize_main c a s ch hs h0 hch hnp (hknd a.depth)
    rcases hms : maybeSerialize c a with _ | p
    · rw [serializeS, hms] at hser
      exact Option.noConfusion hser
    · obtain ⟨p1, p2⟩ := p
      have hp1 : p1 = cEnd := by
        rw [serializeS, hms] at hser
        simpa using hser
      have hknd1 : ∀ d, ((cEnd.slices d).map Prod.fst).Nodup := by
        intro d
        by_cases hd : d = a.depth
        · subst hd
          rw [hsl]
          apply keysND_eraseK
          rw [keys_setK_of_lookup _ _ _ s hs]
          exact hknd a.depth
        · rw [hdne d hd]
          exact hknd d
      have hent1 : ∀ b ∈ rest, ∃ t cht, lookupK (cEnd.slices b.depth) b.pos = some t ∧
          t.count = 0 ∧ t.chunk = some cht ∧ cht.np ≠ 0 := by
        intro b hb
        have hbne : b ≠ a := fun he => (List.nodup_cons.mp hnd).1 (he ▸ hb)
        obtain ⟨t, cht, ht, ht0, htc, htnp⟩ := hent b (List.mem_cons_of_mem _ hb)
        refine ⟨t, cht, ?_, ht0, htc, htnp⟩
        by_cases hd : b.depth = a.depth
        · rw [hd, hkne b.pos (fun hp => hbne (dxyz_eq_of a b hd hp))]
          rw [← hd]
          exact ht
        · rw [hdne b.depth hd]
          exact ht
      obtain ⟨c', tr', hjoin, hchar⟩ := ih cEnd (List.nodup_cons.mp hnd).2 hknd1 hent1
      refine ⟨c', p2 ++ tr', ?_, ?_⟩
      · simp only [joinAll, hms, hp1, hjoin]
      · intro d k
        rw [hchar d k]
        by_cases hin : (⟨d, k⟩ : Dxyz) ∈ a :: rest
        · rw [if_pos hin]
          rcases List.mem_cons.mp hin with he | hinr
          · have hra : (⟨d, k⟩ : Dxyz) ∉ rest := by
              rw [he]
              exact (List.nodup_cons.mp hnd).1
            rw [if_neg hra]
            have hd : d = a.depth := by rw [← he]
            have hk : k = a.pos := by rw [← he]
            subst hd
            subst hk
            exact hnone
          · rw [if_pos hinr]
        · have hra : (⟨d, k⟩ : Dxyz) ∉ rest :=
            fun hr => hin (List.mem_cons_of_mem _ hr)
          have hna : (⟨d, k⟩ : Dxyz) ≠ a :=
            fun he => hin (he ▸ List.mem_cons_self a rest)
          rw [if_neg hra, if_neg hin]
          by_cases hd : d = a.depth
          · subst hd
            rw [hkne k (fun hp => hna (dxyz_eq_of a ⟨a.depth, k⟩ rfl hp))]
          · rw [hdne d hd]

/-- All references correctly released before destruction: every live slot is
owned by the pool with reference count exactly 1 and resident content of
nonzero point count, every pooled address points at a live slot, no
serialization task is pending, and every slice has distinct keys. -/
def Released (c : ChunkCache) : Prop :=
  c.owned.Nodup ∧ c.queue = [] ∧
  (∀ d, ((c.slices d).map Prod.fst).Nodup) ∧
  (∀ d k s, lookupK (c.slices d) k = some s →
    (⟨d, k⟩ : Dxyz) ∈ c.owned ∧ s.count = 1 ∧ ∃ ch, s.chunk = some ch ∧ ch.np ≠ 0) ∧
  (∀ a ∈ c.owned, ∃ s, lookupK (c.slices a.depth) a.pos = some s)

/-- Claim C9: destruction performs maybePurge(0) followed by joining the
task pool, and afterwards every depth slice is empty; in every execution in
which all references were correctly released before destruction the
destructor runs to completion and its all-slices-empty assertion holds. -/
theorem C9_dtor (c : ChunkCache) (h : Released c) :
    ∃ c', dtor c = some c' ∧ ∀ d, c'.slices d = [] := by
  obtain ⟨hnd, hq, hknd, hslot, hown⟩ := h
  have hcnt : ∀ a ∈ c.owned, ∃ s, lookupK (c.slices a.depth) a.pos = some s ∧
      s.count = 1 := by
    intro a ha
    obtain ⟨s, hs⟩ := hown a ha
    obtain ⟨_, hc1, _⟩ := hslot a.depth a.pos s hs
    exact ⟨s, hs, hc1⟩
  obtain ⟨c1, tr1, hpurge, hown1, ⟨l, hq1, hperm⟩, hchar1, hkeys1, _, _, _⟩ :=
    maybePurge_drain c hnd hcnt
  have hq1' : c1.queue = l := by
    rw [hq1, hq]
    simp
  have hlnd : l.Nodup := hperm.nodup_iff.mpr hnd
  have hknd1 : ∀ d, ((({ c1 with queue := [] } : ChunkCache).slices d).map Prod.fst).Nodup := by
    intro d
    show ((c1.slices d).map Prod.fst).Nodup
    rw [hkeys1 d]
    exact hknd d
  have hent1 : ∀ a ∈ l, ∃ s ch,
      lookupK ((({ c1 with queue := [] } : ChunkCache)).slices a.depth) a.pos = some s ∧
      s.count = 0 ∧ s.chunk = some ch ∧ ch.np ≠ 0 := by
    intro a ha
    have ha' : a ∈ c.owned := hperm.mem_iff.mp ha
    obtain ⟨s, hs⟩ := hown a ha'
    obtain ⟨_, _, ch, hch, hnp⟩ := hslot a.depth a.pos s hs
    refine ⟨{ s with count := 0 }, ch, ?_, rfl, hch, hnp⟩
    show lookupK (c1.slices a.depth) a.pos = some { s with count := 0 }
    rw [hchar1 a.depth a.pos, hs]
    simp only [Option.map_some']
    rw [if_pos (show (⟨a.depth, a.pos⟩ : Dxyz) ∈ c.owned from ha')]
  obtain ⟨c2, tr2, hjoin, hchar2⟩ :=
    joinAll_erases l { c1 with queue := [] } hlnd hknd1 hent1
  refine ⟨c2, ?_, ?_⟩
  · show dtor c = some c2
    simp only [dtor, hpurge, hq1', hjoin]
  · intro d
    apply eq_nil_of_lookupK_none
    intro k
    rw [hchar2 d k]
    by_cases hin : (⟨d, k⟩ : Dxyz) ∈ l
    · rw [if_pos hin]
    · rw [if_neg hin]
      show lookupK (c1.slices d) k = none
      rw [hchar1 d k]
      cases hlk : lookupK (c.slices d) k with
      | none => rfl
      | some s =>
        obtain ⟨hmem, _, _⟩ := hslot d k s hlk
        exact absurd (hperm.mem_iff.mpr hmem) hin

/-- A cache in the correctly-released terminal state: one chunk, pooled with
the single pool-owned reference. -/
def cRel : ChunkCache :=
  { slices := fun d =>
      if d = 0 then [(p0, { count := 1, chunk := some { key := a0, np := 5 } })] else [],
    owned := [a0], hierarchy := fun _ => 0, info := ⟨1, 0, 0⟩, saved := [], queue := [] }

theorem cRel_released : Released cRel := by
  refine ⟨by decide, rfl, ?_, ?_, ?_⟩
  · intro d
    by_cases hd : d = 0
    · subst hd
      decide
    · show ((cRel.slices d).map Prod.fst).Nodup
      simp [cRel, hd]
  · intro d k s hlk
    by_cases hd : d = 0
    · subst hd
      by_cases hk : p0 = k
      · subst hk
        have hseq : lookupK (cRel.slices 0) p0 =
            some { count := 1, chunk := some { key := a0, np := 5 } } := by
          decide
        rw [hseq] at hlk
        cases hlk
        exact ⟨by decide, rfl, ⟨{ key := a0, np := 5 }, rfl, by decide⟩⟩
      · have hno : lookupK (cRel.slices 0) k = none := by
          simp [cRel, lookupK, hk]
        rw [hno] at hlk
        exact Option.noConfusion hlk
    · have hno : lookupK (cRel.slices d) k = none := by
        simp [cRel, hd, lookupK]
      rw [hno] at hlk
      exact Option.noConfusion hlk
  · intro a ha
    have haa : a = a0 := by
      simpa [cRel] using ha
    subst haa
    exact ⟨{ count := 1, chunk := some { key := a0, np := 5 } }, by decide⟩

/-- Witness for C9_dtor at the concrete released state cRel. -/
theorem C9_dtor_witness : ∃ c', dtor cRel = some c' ∧ ∀ d, c'.slices d = [] :=
  C9_dtor cRel cRel_released

end EntwineCache
